import Mathlib

/-!
Verification of the rhythm-generation engine of `script.js`.

The engine is embedded shallowly: each JS function is rendered as a Lean
definition over explicit data.  JS records become a `Token` structure
(absent fields are modelled by their JS-default readings: `vfDur` and
`base` read through `|| ''`-style fallbacks become `""`, `dots || 0`
becomes `0`, a missing `isTriplet` becomes `false`; `base` keeps only the
referenced type's `name`, the sole field the program ever reads from it).
The single shared random source (`Math.random`) is modelled as an oracle:
a stream `g : Nat -> Nat` with a position, threaded explicitly; a uniform
pick over `n` alternatives reads the next stream value mod `n`.  The three
occurrences of `array.sort(() => Math.random() - .5)` (a shuffle via a
random comparator) are modelled as an oracle-driven selection shuffle:
the oracle repeatedly picks the index of the next element.  Every JS
`while` loop in the engine carries an explicit bound in the source
(1000 fill tries, 32-unit padding, 50 trim pops, 200 dedup attempts), so
each is rendered as structural recursion on that same bound.
-/

/-- A duration token as constructed by `script.js`: the six catalog types,
their dotted variants, the quaver triplet group and the padding token. -/
structure Token where
  name : String
  units : Nat
  vfDur : String
  dots : Nat
  isTriplet : Bool
  base : String
deriving DecidableEq, Repr

instance : Inhabited Token := ⟨⟨"", 0, "", 0, false, ""⟩⟩

/-- `UNITS_PER_QUARTER` from the source. -/
def UNITS_PER_QUARTER : Nat := 8

/-- `UNITS_PER_BAR = UNITS_PER_QUARTER * 4` from the source. -/
def UNITS_PER_BAR : Nat := UNITS_PER_QUARTER * 4

/-- `TYPES.semibreve`. -/
def semibreveT : Token := ⟨"semibreve", 32, "w", 0, false, ""⟩

/-- `TYPES.minim`. -/
def minimT : Token := ⟨"minim", 16, "h", 0, false, ""⟩

/-- `TYPES.crotchet`. -/
def crotchetT : Token := ⟨"crotchet", 8, "q", 0, false, ""⟩

/-- `TYPES.quaver`. -/
def quaverT : Token := ⟨"quaver", 4, "8", 0, false, ""⟩

/-- `TYPES.semiquaver`. -/
def semiquaverT : Token := ⟨"semiquaver", 2, "16", 0, false, ""⟩

/-- `TYPES.demisemiquaver`. -/
def demisemiquaverT : Token := ⟨"demisemiquaver", 1, "32", 0, false, ""⟩

/-- The `TYPES` table, as a partial map from key to token
(JS indexing with an unknown key yields `undefined`, here `none`). -/
def TYPESf : String → Option Token := fun k =>
  if k = "semibreve" then some semibreveT
  else if k = "minim" then some minimT
  else if k = "crotchet" then some crotchetT
  else if k = "quaver" then some quaverT
  else if k = "semiquaver" then some semiquaverT
  else if k = "demisemiquaver" then some demisemiquaverT
  else none

/-- `TYPES[k]` at the call sites where `k` is a valid key. -/
def typesD (k : String) : Token := (TYPESf k).getD default

/-- `dottedOf`: `Math.floor(units * 1.5)` on these small naturals is
`units * 3 / 2`.  The same record shape is also built inline by
`generateForLevel` for the dotted pool variants. -/
def dottedOf (t : Token) : Token :=
  ⟨"dotted-" ++ t.name, t.units * 3 / 2, t.vfDur, 1, false, ""⟩

/-- `tripletGroup(baseType)`: total units equal one quarter (8). -/
def tripletGroup (b : Token) : Token :=
  ⟨"triplet-" ++ b.name, UNITS_PER_QUARTER, "", 0, true, b.name⟩

/-- The `tripletTemplate = tripletGroup(TYPES.quaver)` of `generateForLevel`. -/
def tripletTemplate : Token := tripletGroup quaverT

/-- The inline smallest-unit padding token of `fillBar`:
`{name:'demisemiquaver', units:1, vfDur:'32'}`. -/
def padToken : Token := ⟨"demisemiquaver", 1, "32", 0, false, ""⟩

/-- A level configuration record, mirroring the entries of `LEVELS`. -/
structure LevelCfg where
  allowed : List String
  required : List String
  allowDotted : Bool
  allowTriplets : Bool
  halfOfTypes : Bool
deriving DecidableEq, Repr

/-- `LEVELS.easy`. -/
def easyCfg : LevelCfg :=
  ⟨["semibreve", "minim", "crotchet", "quaver"],
   ["semibreve", "minim", "crotchet", "quaver"], false, false, false⟩

/-- `LEVELS.medium`. -/
def mediumCfg : LevelCfg :=
  ⟨["semibreve", "minim", "crotchet", "quaver", "semiquaver"],
   ["semibreve", "minim", "crotchet", "quaver", "semiquaver", "dotted", "triplet"],
   true, true, false⟩

/-- `LEVELS.difficult`. -/
def difficultCfg : LevelCfg :=
  ⟨["semibreve", "minim", "crotchet", "quaver", "semiquaver", "demisemiquaver"],
   [], false, false, true⟩

/-- The `LEVELS` table as a partial map from level key. -/
def LEVELS : String → Option LevelCfg := fun k =>
  if k = "easy" then some easyCfg
  else if k = "medium" then some mediumCfg
  else if k = "difficult" then some difficultCfg
  else none

/-- The random source: an oracle stream `g` with a read position. -/
structure Oracle where
  g : Nat → Nat
  pos : Nat

/-- Draw one uniform value below `n` (the embedding of
`Math.floor(Math.random() * n)`). -/
def next (r : Oracle) (n : Nat) : Nat × Oracle :=
  (r.g r.pos % n, ⟨r.g, r.pos + 1⟩)

/-- A concrete oracle given by a finite list of draws (0 afterwards). -/
def mkOracle (l : List Nat) : Oracle := ⟨fun i => l.getD i 0, 0⟩

/-- Total units of a token list (the running `usedUnits` bookkeeping). -/
def sumUnits (l : List Token) : Nat := (l.map Token.units).sum

/-- JS `Array.prototype.join(sep)`. -/
def joinSep (sep : String) : List String → String
  | [] => ""
  | [s] => s
  | s :: rest => s ++ sep ++ joinSep sep rest

/-- The per-token encoding inside `barsKey`. -/
def tokenKey (t : Token) : String :=
  if t.isTriplet then "triplet:" ++ t.base
  else t.name ++ ":" ++ toString t.units ++ ":" ++ t.vfDur ++ ":" ++ toString t.dots

/-- The per-bar part of `barsKey`: token encodings joined by `-`. -/
def barKeyStr (bar : List Token) : String :=
  joinSep "-" (bar.map tokenKey)

/-- `barsKey`: per-bar token encodings joined by `-`, bars joined by `|`. -/
def barsKey (bars : List (List Token)) : String :=
  joinSep "|" (bars.map barKeyStr)

/-- `Object.assign({}, token)`: a fresh shallow copy of a token. -/
def cloneToken (t : Token) : Token :=
  ⟨t.name, t.units, t.vfDur, t.dots, t.isTriplet, t.base⟩

/-- `cloneBars`. -/
def cloneBars (bars : List (List Token)) : List (List Token) :=
  bars.map (fun bar => bar.map cloneToken)

/-- Oracle-driven selection shuffle (the model of
`array.sort(() => Math.random() - .5)`): repeatedly draw an index into the
remaining elements and emit that element.  Fuel equals the list length. -/
def shuffleAux [Inhabited α] : Nat → List α → Oracle → List α × Oracle
  | 0, l, r => (l, r)
  | _ + 1, [], r => ([], r)
  | fuel + 1, l, r =>
    let (k, r1) := next r l.length
    let x := l.getD k default
    let (rest, r2) := shuffleAux fuel (l.eraseIdx k) r1
    (x :: rest, r2)

/-- Shuffle a list using the oracle. -/
def shuffle [Inhabited α] (l : List α) (r : Oracle) : List α × Oracle :=
  shuffleAux l.length l r

/-- The base type that `generateForLevel` dots for the `'dotted'` required
entry: the first medium-allowed type with at most 16 units
(`LEVELS.medium.allowed.map(..).find(t => t.units <= 16) || TYPES.crotchet`). -/
def mediumDottedBase : Token :=
  ((mediumCfg.allowed.map typesD).find? (fun t => decide (t.units ≤ 16))).getD
    (typesD "crotchet")

/-- The explicit-required branch of `generateForLevel`: each `'dotted'`
entry becomes the dotted medium base, each `'triplet'` the triplet
template, any other entry the catalog type of that key. -/
def resolveRequiredList (req : List String) : List Token :=
  req.map (fun s =>
    if s = "dotted" then dottedOf mediumDottedBase
    else if s = "triplet" then tripletTemplate
    else typesD s)

/-- Required-token resolution of `generateForLevel`: for `halfOfTypes`
levels, shuffle the difficult catalog keys (the source hardcodes
`LEVELS.difficult.allowed`) and keep the first `max 1 (n / 2)`;
otherwise resolve the level's `required` list (no oracle reads). -/
def resolveRequired (cfg : LevelCfg) (r : Oracle) : List Token × Oracle :=
  if cfg.halfOfTypes then
    let baseTypes := difficultCfg.allowed
    let chooseCount := max 1 (baseTypes.length / 2)
    let (shuffled, r1) := shuffle baseTypes r
    ((shuffled.take chooseCount).map typesD, r1)
  else (resolveRequiredList cfg.required, r)

/-- Random partition of the required tokens over the two bars: each token
goes to bar 0 or bar 1 on an independent draw (`Math.random() < 0.5`). -/
def partitionReqs : List Token → Oracle → (List Token × List Token) × Oracle
  | [], r => (([], []), r)
  | t :: ts, r =>
    let (k, r1) := next r 2
    let ((b0, b1), r2) := partitionReqs ts r1
    if k = 0 then ((t :: b0, b1), r2) else ((b0, t :: b1), r2)

/-- The sampling pool of `fillBar`: the allowed tokens, plus the triplet
template when triplets are enabled. -/
def mkPool (allowTrip : Bool) (allowed : List Token) : List Token :=
  allowed ++ (if allowTrip then [tripletTemplate] else [])

/-- The greedy random fill loop of `fillBar` (`maxTries = 1000`): pick a
pool token; skip it if it would overflow the bar, else push a copy. -/
def fillBarLoop (pool : List Token) : Nat → List Token → Nat → Oracle → List Token × Nat × Oracle
  | 0, tokens, used, r => (tokens, used, r)
  | fuel + 1, tokens, used, r =>
    if used < UNITS_PER_BAR then
      let (k, r1) := next r pool.length
      let cand := pool.getD k default
      if used + cand.units > UNITS_PER_BAR then fillBarLoop pool fuel tokens used r1
      else fillBarLoop pool fuel (tokens ++ [cloneToken cand]) (used + cand.units) r1
    else (tokens, used, r)

/-- The smallest-unit padding loop of `fillBar`: push 1-unit tokens while
under capacity.  The loop adds at most `UNITS_PER_BAR` tokens, which is
the fuel it is run with. -/
def padLoopF : Nat → List Token → Nat → List Token × Nat
  | 0, tokens, used => (tokens, used)
  | fuel + 1, tokens, used =>
    if used < UNITS_PER_BAR then padLoopF fuel (tokens ++ [padToken]) (used + 1)
    else (tokens, used)

/-- The defensive trim loop of `fillBar`: while overfilled, nonempty and
fewer than 50 pops, pop the trailing token.  The source counts pops up
from 0 to 50; here the same 50 iterations are counted down as fuel. -/
def trimLoopF : Nat → List Token → Nat → List Token × Nat
  | 0, tokens, used => (tokens, used)
  | fuel + 1, tokens, used =>
    if used > UNITS_PER_BAR ∧ tokens ≠ [] then
      let t := tokens.getLast?.getD default
      trimLoopF fuel tokens.dropLast (used - t.units)
    else (tokens, used)

/-- `fillBar` up to (but not including) the trim phase: required copies,
then the greedy random fill, then the padding loop. -/
def fillBarPreTrim (allowTrip : Bool) (allowed : List Token) (reqs : List Token)
    (r : Oracle) : List Token × Nat × Oracle :=
  let tokens0 := reqs.map cloneToken
  let used0 := sumUnits reqs
  let pool := mkPool allowTrip allowed
  let (t1, u1, r1) := fillBarLoop pool 1000 tokens0 used0 r
  let (t2, u2) := padLoopF UNITS_PER_BAR t1 u1
  (t2, u2, r1)

/-- The full `fillBar`: pre-trim phases, the defensive trim, then the
final order shuffle. -/
def fillBar (allowTrip : Bool) (allowed : List Token) (reqs : List Token)
    (r : Oracle) : List Token × Oracle :=
  let (t2, u2, r1) := fillBarPreTrim allowTrip allowed reqs r
  let (t3, _) := trimLoopF 50 t2 u2
  shuffle t3 r1

/-- The allowed pool computed at the top of `generateForLevel`: the
level's base types, extended by their dotted variants when enabled (the
source builds the dotted records inline with the same shape as
`dottedOf`). -/
def allowedOf (cfg : LevelCfg) : List Token :=
  let allowed0 := cfg.allowed.map typesD
  if cfg.allowDotted then allowed0 ++ allowed0.map dottedOf else allowed0

/-- Required-token resolution followed by the random two-bar partition,
exactly as the two happen in sequence inside `generateForLevel`. -/
def genBuckets (cfg : LevelCfg) (r : Oracle) : (List Token × List Token) × Oracle :=
  let (requiredTokens, r1) := resolveRequired cfg r
  partitionReqs requiredTokens r1

/-- `generateForLevel` for a resolved configuration: build the allowed
pool (with dotted variants when enabled), resolve the required tokens,
partition them over the two bars, and fill each bar. -/
def generateForLevelCfg (cfg : LevelCfg) (r : Oracle) : List (List Token) × Oracle :=
  let (buckets, r2) := genBuckets cfg r
  let (bar0, r3) := fillBar cfg.allowTriplets (allowedOf cfg) buckets.1 r2
  let (bar1, r4) := fillBar cfg.allowTriplets (allowedOf cfg) buckets.2 r3
  ([bar0, bar1], r4)

/-- `generateForLevel` by level key (`none` on an unrecognized key, where
the JS code would fault on `undefined`). -/
def generateForLevel (levelKey : String) (r : Oracle) : Option (List (List Token) × Oracle) :=
  (LEVELS levelKey).map (fun cfg => generateForLevelCfg cfg r)

/-- JS `options.map((o, i) => ({o, i}))`: pair every element with its index. -/
def withIdx : List α → Nat → List (Nat × α)
  | [], _ => []
  | a :: as, i => (i, a) :: withIdx as (i + 1)

/-- The dedup loop of `generateOptions` (200 attempts): generate a
candidate, skip it when its key was already seen, else append it. -/
def genOptsLoop (cfg : LevelCfg) :
    Nat → List (List (List Token)) → List String → Oracle →
    List (List (List Token)) × List String × Oracle
  | 0, options, seen, r => (options, seen, r)
  | fuel + 1, options, seen, r =>
    if options.length < 4 then
      let (candidate, r1) := generateForLevelCfg cfg r
      let key := barsKey candidate
      if key ∈ seen then genOptsLoop cfg fuel options seen r1
      else genOptsLoop cfg fuel (options ++ [candidate]) (seen ++ [key]) r1
    else (options, seen, r)

/-- The fallback padding of `generateOptions`: clone the correct bars into
any remaining slots. -/
def padOptions (options : List (List (List Token))) (correct : List (List Token)) :
    List (List (List Token)) :=
  options ++ List.replicate (4 - options.length) (cloneBars correct)

/-- `generateOptions` for a resolved configuration: seed with the correct
bars, dedup-generate up to 4 options, pad with clones, shuffle the
index-tagged list, and report the new position of entry 0. -/
def generateOptionsCfg (cfg : LevelCfg) (correct : List (List Token)) (r : Oracle) :
    (List (List (List Token)) × Nat) × Oracle :=
  let (opts1, _, r1) := genOptsLoop cfg 200 [correct] [barsKey correct] r
  let opts2 := padOptions opts1 correct
  let (shuffledPairs, r2) := shuffle (withIdx opts2 0) r1
  let options := shuffledPairs.map Prod.snd
  let correctIndex := shuffledPairs.findIdx (fun p => p.1 == 0)
  ((options, correctIndex), r2)

/-- `generateOptions` by level key. -/
def generateOptions (correct : List (List Token)) (levelKey : String) (r : Oracle) :
    Option ((List (List (List Token)) × Nat) × Oracle) :=
  (LEVELS levelKey).map (fun cfg => generateOptionsCfg cfg correct r)

/-- The triplet inner loop of `playRhythm`, idealized over exact
rationals: `n` clicks, the cursor advancing by `sub` after each.  This
is the real-arithmetic law the spec states; the binary64 arithmetic the
program actually performs is embedded separately by `tripClicksF`. -/
def tripClicks : Nat → ℚ → ℚ → List ℚ × ℚ
  | 0, cursor, _ => ([], cursor)
  | n + 1, cursor, sub =>
    let (rest, c2) := tripClicks n (cursor + sub) sub
    (cursor :: rest, c2)

/-- One token of the `playRhythm` walk, idealized over exact rationals:
a triplet token yields three clicks `(units / 3) * secondsPerUnit`
apart; any other token yields one click and advances the cursor by
`units * secondsPerUnit`.  This reading treats the JS doubles as exact
reals; the program's own binary64 arithmetic, with its roundings, is
embedded separately by `scheduleTokenF`. -/
def scheduleToken (spu : ℚ) (cursor : ℚ) (t : Token) : List ℚ × ℚ :=
  if t.isTriplet then
    let subDur := ((t.units : ℚ) / 3) * spu
    tripClicks 3 cursor subDur
  else ([cursor], cursor + (t.units : ℚ) * spu)

/-- Fuel-driven binary digit count of a natural number: `bitLenF f n`
halves `n` until it reaches `0`.  Fuel `4000` covers every integer
below `2 ^ 4000`, far above anything the playback model produces, and
keeps the recursion structural so the kernel can evaluate it. -/
def bitLenF : Nat → Nat → Nat
  | 0, _ => 0
  | fuel + 1, n => if n = 0 then 0 else bitLenF fuel (n / 2) + 1

/-- Binary digit count (`bitLen n = ⌊log₂ n⌋ + 1` for `n ≥ 1`). -/
def bitLen (n : Nat) : Nat := bitLenF 4000 n

/-- `⌊log₂ (num / den)⌋` for `1 ≤ num / den` (the only range the scaled
playback values occupy): the bit-length estimate corrected by direct
comparison. -/
def flog2Frac (num den : Nat) : Nat :=
  let e0 := bitLen num - bitLen den
  if den * 2 ^ (e0 + 1) ≤ num then e0 + 1
  else if den * 2 ^ e0 ≤ num then e0
  else e0 - 1

/-- Fixed-point scale of the binary64 playback model: a double `x` is
stored as the natural number `x * SCALE`, which is exact for every
nonnegative binary64 value with exponent at least `-68` — ample for the
audio clock values and note durations `playRhythm` manipulates. -/
def SCALE : Nat := 2 ^ 120

/-- Round the nonnegative rational `num / den`, read in `SCALE`-ths, to
the nearest IEEE binary64 value (round-to-nearest, ties to even),
returned in `SCALE`-ths: keep 53 significant bits, i.e. round to a
multiple of the granule `2 ^ (e - 52)` `SCALE`-ths where `e` is the
value's `⌊log₂⌋`, by comparing twice the remainder with the divisor. -/
def roundFrac (num den : Nat) : Nat :=
  if num = 0 ∨ den = 0 then 0
  else
    let e := flog2Frac num den
    let g := if 52 ≤ e then 2 ^ (e - 52) else 1
    let dg := den * g
    let q := num / dg
    let r := num % dg
    if dg < 2 * r then (q + 1) * g
    else if 2 * r < dg then q * g
    else if q % 2 = 0 then q * g else (q + 1) * g

/-- Binary64 addition on `SCALE`-scaled values: the exact sum (itself a
scaled integer), rounded. -/
def fadd64 (a b : Nat) : Nat := roundFrac (a + b) 1

/-- Binary64 multiplication on `SCALE`-scaled values: the exact product
is `a * b / SCALE`, rounded. -/
def fmul64 (a b : Nat) : Nat := roundFrac (a * b) SCALE

/-- Binary64 division on `SCALE`-scaled values: the exact quotient is
`a * SCALE / b`, rounded. -/
def fdiv64 (a b : Nat) : Nat := roundFrac (a * SCALE) b

/-- The rational a `SCALE`-scaled value denotes. -/
def toQ (n : Nat) : ℚ := (n : ℚ) / (SCALE : ℚ)

/-- The triplet inner loop of `playRhythm` in binary64 arithmetic:
`n` clicks, the cursor advancing by the rounded sum
`fadd64 cursor sub` after each (`cursor += subDur` on doubles). -/
def tripClicksF : Nat → Nat → Nat → List Nat × Nat
  | 0, cursor, _ => ([], cursor)
  | n + 1, cursor, sub =>
    let (rest, c2) := tripClicksF n (fadd64 cursor sub) sub
    (cursor :: rest, c2)

/-- One token of the `playRhythm` walk in binary64 arithmetic, `spu` and
`cursor` being `SCALE`-scaled doubles: a triplet token computes
`subDur = (token.units / 3) * secondsPerUnit` with a rounded division
and a rounded product, then adds it to the cursor three times, each
addition rounding again; any other token adds the rounded product
`token.units * secondsPerUnit` once. -/
def scheduleTokenF (spu cursor : Nat) (t : Token) : List Nat × Nat :=
  if t.isTriplet then
    let subDur := fmul64 (fdiv64 (t.units * SCALE) (3 * SCALE)) spu
    tripClicksF 3 cursor subDur
  else ([cursor], fadd64 cursor (fmul64 (t.units * SCALE) spu))

/-- The program's own `secondsPerUnit = (60 / TEMPO_BPM) / UNITS_PER_QUARTER`
at `TEMPO_BPM = 96`, computed with binary64 divisions; the result is the
exactly representable `5 / 64 = 0.078125`. -/
def spuF : Nat := fdiv64 (fdiv64 (60 * SCALE) (96 * SCALE)) (8 * SCALE)

/-- The binary64 value nearest `0.1`: the start-cursor offset
`playRhythm` adds to the audio clock (`audioCtx.currentTime + 0.1`),
taken here at clock `0`. -/
def startCursorF : Nat := roundFrac SCALE 10

/-- The token universe: every token value the generator can place in a
bar (six catalog types, the five medium dotted variants, the triplet
template, and the padding token, the last being the catalog
demisemiquaver itself). -/
def tokenUniverse : List Token :=
  [semibreveT, minimT, crotchetT, quaverT, semiquaverT, demisemiquaverT,
   dottedOf semibreveT, dottedOf minimT, dottedOf crotchetT, dottedOf quaverT,
   dottedOf semiquaverT, tripletTemplate]

/-- Boolean list-prefix test used to state the decodability facts about
`tokenKey` codes. -/
def listPre : List Char → List Char → Bool
  | [], _ => true
  | _ :: _, [] => false
  | a :: as, b :: bs => a == b && listPre as bs

/-! ## Basic facts about the embedded operations -/

theorem cloneToken_eq (t : Token) : cloneToken t = t := by
  cases t; rfl

theorem map_cloneToken (l : List Token) : l.map cloneToken = l := by
  induction l with
  | nil => rfl
  | cons a as ih => simp [cloneToken_eq, ih]

theorem cloneBars_eq (bars : List (List Token)) : cloneBars bars = bars := by
  simp [cloneBars, map_cloneToken]

theorem sumUnits_nil : sumUnits [] = 0 := rfl

theorem sumUnits_append (l1 l2 : List Token) :
    sumUnits (l1 ++ l2) = sumUnits l1 + sumUnits l2 := by
  simp [sumUnits]

theorem sumUnits_perm {l1 l2 : List Token} (h : l1.Perm l2) :
    sumUnits l1 = sumUnits l2 :=
  (h.map Token.units).sum_eq

theorem sumUnits_cons (t : Token) (l : List Token) :
    sumUnits (t :: l) = t.units + sumUnits l := by
  simp [sumUnits]

theorem sumUnits_replicate (n : Nat) (t : Token) :
    sumUnits (List.replicate n t) = n * t.units := by
  induction n with
  | zero => simp [sumUnits]
  | succ n ih => rw [List.replicate_succ, sumUnits_cons, ih, Nat.succ_mul]; omega

theorem perm_getD_cons_eraseIdx {α : Type} [Inhabited α] :
    ∀ (l : List α) (k : Nat), k < l.length → (l.getD k default :: l.eraseIdx k).Perm l
  | [], k, h => by simp at h
  | a :: as, 0, _ => by simp
  | a :: as, k + 1, h => by
    have hk : k < as.length := by simpa using h
    have ih := perm_getD_cons_eraseIdx as k hk
    have h1 : (a :: as).getD (k + 1) default = as.getD k default := rfl
    have h2 : (a :: as).eraseIdx (k + 1) = a :: as.eraseIdx k := rfl
    rw [h1, h2]
    exact (List.Perm.swap a (as.getD k default) (as.eraseIdx k)).trans (ih.cons a)

theorem shuffleAux_perm {α : Type} [Inhabited α] :
    ∀ (fuel : Nat) (l : List α) (r : Oracle), ((shuffleAux fuel l r).1).Perm l
  | 0, l, _ => List.Perm.refl l
  | _ + 1, [], _ => List.Perm.refl []
  | fuel + 1, a :: as, r => by
    have hlen : (r.g r.pos % (a :: as).length) < (a :: as).length :=
      Nat.mod_lt _ (by simp)
    have ih := shuffleAux_perm fuel ((a :: as).eraseIdx (r.g r.pos % (a :: as).length))
      ⟨r.g, r.pos + 1⟩
    have hperm := perm_getD_cons_eraseIdx (a :: as) (r.g r.pos % (a :: as).length) hlen
    exact (ih.cons _).trans hperm

theorem shuffle_perm {α : Type} [Inhabited α] (l : List α) (r : Oracle) :
    ((shuffle l r).1).Perm l :=
  shuffleAux_perm l.length l r

/-! ## The fill, pad and trim loops -/

theorem fillBarLoop_of_ge (pool : List Token) (fuel : Nat) (tokens : List Token)
    (used : Nat) (r : Oracle) (h : ¬ used < UNITS_PER_BAR) :
    fillBarLoop pool fuel tokens used r = (tokens, used, r) := by
  cases fuel with
  | zero => rfl
  | succ fuel => simp [fillBarLoop, h]

theorem fillBarLoop_sum (pool : List Token) :
    ∀ (fuel : Nat) (tokens : List Token) (used : Nat) (r : Oracle),
      sumUnits tokens = used →
      sumUnits (fillBarLoop pool fuel tokens used r).1 = (fillBarLoop pool fuel tokens used r).2.1
  | 0, tokens, used, r, h => h
  | fuel + 1, tokens, used, r, h => by
    by_cases hu : used < UNITS_PER_BAR
    · simp only [fillBarLoop, hu, if_true]
      by_cases hc : used + (pool.getD ((next r pool.length).1) default).units > UNITS_PER_BAR
      · simp only [hc, if_true]
        exact fillBarLoop_sum pool fuel tokens used _ h
      · simp only [hc, if_false]
        refine fillBarLoop_sum pool fuel _ _ _ ?_
        rw [sumUnits_append, h, sumUnits_cons, sumUnits_nil, cloneToken_eq]
        omega
    · rw [fillBarLoop_of_ge pool _ tokens used r hu]; exact h

theorem fillBarLoop_le (pool : List Token) :
    ∀ (fuel : Nat) (tokens : List Token) (used : Nat) (r : Oracle),
      used ≤ UNITS_PER_BAR →
      (fillBarLoop pool fuel tokens used r).2.1 ≤ UNITS_PER_BAR
  | 0, _, _, _, h => h
  | fuel + 1, tokens, used, r, h => by
    by_cases hu : used < UNITS_PER_BAR
    · simp only [fillBarLoop, hu, if_true]
      by_cases hc : used + (pool.getD ((next r pool.length).1) default).units > UNITS_PER_BAR
      · simp only [hc, if_true]; exact fillBarLoop_le pool fuel tokens used _ h
      · simp only [hc, if_false]; exact fillBarLoop_le pool fuel _ _ _ (by omega)
    · rw [fillBarLoop_of_ge pool _ tokens used r hu]; exact h

theorem fillBarLoop_ext (pool : List Token) (hp : pool ≠ []) :
    ∀ (fuel : Nat) (tokens : List Token) (used : Nat) (r : Oracle),
      ∃ ext, (fillBarLoop pool fuel tokens used r).1 = tokens ++ ext ∧
        ∀ x ∈ ext, ∃ c ∈ pool, x = cloneToken c
  | 0, tokens, used, r => ⟨[], by simp [fillBarLoop]⟩
  | fuel + 1, tokens, used, r => by
    by_cases hu : used < UNITS_PER_BAR
    · simp only [fillBarLoop, hu, if_true]
      by_cases hc : used + (pool.getD ((next r pool.length).1) default).units > UNITS_PER_BAR
      · simp only [hc, if_true]; exact fillBarLoop_ext pool hp fuel tokens used _
      · simp only [hc, if_false]
        obtain ⟨ext, he, hm⟩ := fillBarLoop_ext pool hp fuel
          (tokens ++ [cloneToken (pool.getD ((next r pool.length).1) default)])
          (used + (pool.getD ((next r pool.length).1) default).units) (next r pool.length).2
        refine ⟨cloneToken (pool.getD ((next r pool.length).1) default) :: ext,
          by simpa using he, ?_⟩
        intro x hx
        rcases List.mem_cons.1 hx with hx | hx
        · have hlt : (next r pool.length).1 < pool.length :=
            Nat.mod_lt _ (List.length_pos.2 hp)
          refine ⟨pool.getD ((next r pool.length).1) default, ?_, hx⟩
          rw [List.getD_eq_getElem pool default hlt]
          exact List.getElem_mem hlt
        · exact hm x hx
    · rw [fillBarLoop_of_ge pool _ tokens used r hu]; exact ⟨[], by simp⟩

theorem fillBarLoop_pre (pool : List Token) :
    ∀ (fuel : Nat) (tokens : List Token) (used : Nat) (r : Oracle),
      ∃ ext, (fillBarLoop pool fuel tokens used r).1 = tokens ++ ext
  | 0, tokens, used, r => ⟨[], by simp [fillBarLoop]⟩
  | fuel + 1, tokens, used, r => by
    by_cases hu : used < UNITS_PER_BAR
    · simp only [fillBarLoop, hu, if_true]
      by_cases hc : used + (pool.getD ((next r pool.length).1) default).units > UNITS_PER_BAR
      · simp only [hc, if_true]; exact fillBarLoop_pre pool fuel tokens used _
      · simp only [hc, if_false]
        obtain ⟨ext, he⟩ := fillBarLoop_pre pool fuel
          (tokens ++ [cloneToken (pool.getD ((next r pool.length).1) default)])
          (used + (pool.getD ((next r pool.length).1) default).units) (next r pool.length).2
        exact ⟨cloneToken (pool.getD ((next r pool.length).1) default) :: ext,
          by simpa using he⟩
    · rw [fillBarLoop_of_ge pool _ tokens used r hu]; exact ⟨[], by simp⟩

theorem padLoopF_ext :
    ∀ (fuel : Nat) (tokens : List Token) (used : Nat),
      ∃ ext, (padLoopF fuel tokens used).1 = tokens ++ ext ∧ ∀ x ∈ ext, x = padToken
  | 0, tokens, used => ⟨[], by simp [padLoopF], by simp⟩
  | fuel + 1, tokens, used => by
    by_cases hu : used < UNITS_PER_BAR
    · simp only [padLoopF, hu, if_true]
      obtain ⟨ext, he, hm⟩ := padLoopF_ext fuel (tokens ++ [padToken]) (used + 1)
      refine ⟨padToken :: ext, by simpa using he, ?_⟩
      intro x hx
      rcases List.mem_cons.1 hx with hx | hx
      · exact hx
      · exact hm x hx
    · simp only [padLoopF, hu, if_false]
      exact ⟨[], by simp, by simp⟩

theorem padLoopF_of_ge (fuel : Nat) (tokens : List Token) (used : Nat)
    (h : ¬ used < UNITS_PER_BAR) : padLoopF fuel tokens used = (tokens, used) := by
  cases fuel with
  | zero => rfl
  | succ fuel => simp [padLoopF, h]

theorem padLoopF_spec :
    ∀ (fuel : Nat) (tokens : List Token) (used : Nat),
      used ≤ UNITS_PER_BAR → UNITS_PER_BAR ≤ used + fuel →
      padLoopF fuel tokens used =
        (tokens ++ List.replicate (UNITS_PER_BAR - used) padToken, UNITS_PER_BAR)
  | 0, tokens, used, h1, h2 => by
    have : used = UNITS_PER_BAR := by omega
    subst this
    simp [padLoopF]
  | fuel + 1, tokens, used, h1, h2 => by
    by_cases hu : used < UNITS_PER_BAR
    · simp only [padLoopF, hu, if_true]
      rw [padLoopF_spec fuel (tokens ++ [padToken]) (used + 1) (by omega) (by omega)]
      have hrep : UNITS_PER_BAR - used = (UNITS_PER_BAR - (used + 1)) + 1 := by omega
      rw [hrep, List.replicate_succ, List.append_assoc]
      rfl
    · have : used = UNITS_PER_BAR := by
        have := h1; omega
      subst this
      simp [padLoopF]

theorem trimLoopF_of_le (fuel : Nat) (tokens : List Token) (used : Nat)
    (h : ¬ used > UNITS_PER_BAR) : trimLoopF fuel tokens used = (tokens, used) := by
  cases fuel with
  | zero => rfl
  | succ fuel => simp [trimLoopF, h]

theorem trimLoopF_sum :
    ∀ (fuel : Nat) (tokens : List Token) (used : Nat),
      sumUnits tokens = used →
      sumUnits (trimLoopF fuel tokens used).1 = (trimLoopF fuel tokens used).2
  | 0, tokens, used, h => h
  | fuel + 1, tokens, used, h => by
    by_cases hg : used > UNITS_PER_BAR ∧ tokens ≠ []
    · simp only [trimLoopF]; rw [if_pos hg]
      have hne := hg.2
      have hlast : tokens.getLast?.getD default = tokens.getLast hne := by
        rw [List.getLast?_eq_getLast _ hne]; rfl
      have hsplit : tokens.dropLast ++ [tokens.getLast hne] = tokens :=
        List.dropLast_append_getLast hne
      have hsum : sumUnits tokens.dropLast + (tokens.getLast hne).units = used := by
        have hs : sumUnits tokens = sumUnits tokens.dropLast + (tokens.getLast hne).units := by
          conv_lhs => rw [← hsplit]
          rw [sumUnits_append, sumUnits_cons, sumUnits_nil]
          omega
        omega
      rw [hlast]
      exact trimLoopF_sum fuel tokens.dropLast (used - (tokens.getLast hne).units)
        (by omega)
    · simp only [trimLoopF]; rw [if_neg hg]; exact h

theorem trimLoopF_le :
    ∀ (fuel : Nat) (tokens : List Token) (used : Nat),
      sumUnits tokens = used → tokens.length ≤ fuel →
      (trimLoopF fuel tokens used).2 ≤ UNITS_PER_BAR
  | 0, tokens, used, h, hlen => by
    have : tokens = [] := List.length_eq_zero.1 (by omega)
    subst this
    rw [trimLoopF, ← h, sumUnits_nil]
    exact Nat.zero_le _
  | fuel + 1, tokens, used, h, hlen => by
    by_cases hg : used > UNITS_PER_BAR ∧ tokens ≠ []
    · simp only [trimLoopF]; rw [if_pos hg]
      have hne := hg.2
      have hlast : tokens.getLast?.getD default = tokens.getLast hne := by
        rw [List.getLast?_eq_getLast _ hne]; rfl
      have hsplit : tokens.dropLast ++ [tokens.getLast hne] = tokens :=
        List.dropLast_append_getLast hne
      have hsum : sumUnits tokens.dropLast + (tokens.getLast hne).units = used := by
        have hs : sumUnits tokens = sumUnits tokens.dropLast + (tokens.getLast hne).units := by
          conv_lhs => rw [← hsplit]
          rw [sumUnits_append, sumUnits_cons, sumUnits_nil]
          omega
        omega
      have hlen2 : tokens.dropLast.length ≤ fuel := by
        have := List.length_dropLast tokens
        have hpos : 0 < tokens.length := List.length_pos.2 hne
        omega
      rw [hlast]
      exact trimLoopF_le fuel tokens.dropLast (used - (tokens.getLast hne).units)
        (by omega) hlen2
    · simp only [trimLoopF]; rw [if_neg hg]
      rcases not_and_or.1 hg with hg1 | hg2
      · omega
      · have : tokens = [] := not_not.1 hg2
        subst this
        rw [← h, sumUnits_nil]
        exact Nat.zero_le _

theorem trimLoopF_sublist :
    ∀ (fuel : Nat) (tokens : List Token) (used : Nat),
      ((trimLoopF fuel tokens used).1).Sublist tokens
  | 0, tokens, used => List.Sublist.refl tokens
  | fuel + 1, tokens, used => by
    by_cases hg : used > UNITS_PER_BAR ∧ tokens ≠ []
    · simp only [trimLoopF]; rw [if_pos hg]
      exact (trimLoopF_sublist fuel tokens.dropLast _).trans (List.dropLast_sublist tokens)
    · simp only [trimLoopF]
      rw [if_neg hg]

/-! ## The required-token partition and the assembled fillBar -/

theorem partitionReqs_sublist :
    ∀ (l : List Token) (r : Oracle),
      ((partitionReqs l r).1.1).Sublist l ∧ ((partitionReqs l r).1.2).Sublist l
  | [], _ => ⟨List.Sublist.refl [], List.Sublist.refl []⟩
  | t :: ts, r => by
    obtain ⟨h0, h1⟩ := partitionReqs_sublist ts (next r 2).2
    simp only [partitionReqs]
    by_cases hk : (next r 2).1 = 0
    · rw [if_pos hk]
      exact ⟨h0.cons₂ t, h1.cons t⟩
    · rw [if_neg hk]
      exact ⟨h0.cons t, h1.cons₂ t⟩

theorem partitionReqs_mem :
    ∀ (l : List Token) (r : Oracle) (t : Token), t ∈ l →
      t ∈ (partitionReqs l r).1.1 ∨ t ∈ (partitionReqs l r).1.2
  | [], _, t, ht => absurd ht (List.not_mem_nil t)
  | a :: ts, r, t, ht => by
    simp only [partitionReqs]
    by_cases hk : (next r 2).1 = 0
    · rw [if_pos hk]
      rcases List.mem_cons.1 ht with h | h
      · exact Or.inl (by simp [h])
      · rcases partitionReqs_mem ts (next r 2).2 t h with h2 | h2
        · exact Or.inl (List.mem_cons_of_mem a h2)
        · exact Or.inr h2
    · rw [if_neg hk]
      rcases List.mem_cons.1 ht with h | h
      · exact Or.inr (by simp [h])
      · rcases partitionReqs_mem ts (next r 2).2 t h with h2 | h2
        · exact Or.inl h2
        · exact Or.inr (List.mem_cons_of_mem a h2)

theorem fillBar_shape (allowTrip : Bool) (allowed reqs : List Token) (r : Oracle) :
    fillBar allowTrip allowed reqs r =
      shuffle (trimLoopF 50 (fillBarPreTrim allowTrip allowed reqs r).1
        (fillBarPreTrim allowTrip allowed reqs r).2.1).1
        (fillBarPreTrim allowTrip allowed reqs r).2.2 := rfl

/-- When the required tokens fit the bar, the fill and pad phases end at
exactly the bar capacity. -/
theorem fillBarPreTrim_exact (allowTrip : Bool) (allowed reqs : List Token) (r : Oracle)
    (h : sumUnits reqs ≤ UNITS_PER_BAR) :
    (fillBarPreTrim allowTrip allowed reqs r).2.1 = UNITS_PER_BAR ∧
    sumUnits (fillBarPreTrim allowTrip allowed reqs r).1 = UNITS_PER_BAR := by
  have hsum0 : sumUnits (reqs.map cloneToken) = sumUnits reqs := by rw [map_cloneToken]
  set pool := mkPool allowTrip allowed with hpool
  have hle := fillBarLoop_le pool 1000 (reqs.map cloneToken) (sumUnits reqs) r h
  have hfs := fillBarLoop_sum pool 1000 (reqs.map cloneToken) (sumUnits reqs) r hsum0
  set st := fillBarLoop pool 1000 (reqs.map cloneToken) (sumUnits reqs) r with hst
  have hpad := padLoopF_spec UNITS_PER_BAR st.1 st.2.1 hle (by omega)
  constructor
  · show (padLoopF UNITS_PER_BAR st.1 st.2.1).2 = UNITS_PER_BAR
    rw [hpad]
  · show sumUnits (padLoopF UNITS_PER_BAR st.1 st.2.1).1 = UNITS_PER_BAR
    rw [hpad]
    simp only [sumUnits_append, sumUnits_replicate]
    have : padToken.units = 1 := rfl
    rw [this, hfs]
    omega

/-- When the required tokens fit the bar, the produced bar sums to exactly
the capacity. -/
theorem fillBar_sum_exact (allowTrip : Bool) (allowed reqs : List Token) (r : Oracle)
    (h : sumUnits reqs ≤ UNITS_PER_BAR) :
    sumUnits (fillBar allowTrip allowed reqs r).1 = UNITS_PER_BAR := by
  obtain ⟨hu, hs⟩ := fillBarPreTrim_exact allowTrip allowed reqs r h
  rw [fillBar_shape]
  have htrim : trimLoopF 50 (fillBarPreTrim allowTrip allowed reqs r).1
      (fillBarPreTrim allowTrip allowed reqs r).2.1 =
      ((fillBarPreTrim allowTrip allowed reqs r).1,
       (fillBarPreTrim allowTrip allowed reqs r).2.1) := by
    apply trimLoopF_of_le
    omega
  rw [htrim]
  rw [sumUnits_perm (shuffle_perm _ _)]
  exact hs

/-- When the required tokens fit the bar, every required token survives
into the produced bar. -/
theorem fillBar_keeps_reqs (allowTrip : Bool) (allowed reqs : List Token) (r : Oracle)
    (h : sumUnits reqs ≤ UNITS_PER_BAR) :
    ∀ t ∈ reqs, t ∈ (fillBar allowTrip allowed reqs r).1 := by
  intro t ht
  obtain ⟨hu, _⟩ := fillBarPreTrim_exact allowTrip allowed reqs r h
  rw [fillBar_shape]
  have htrim : trimLoopF 50 (fillBarPreTrim allowTrip allowed reqs r).1
      (fillBarPreTrim allowTrip allowed reqs r).2.1 =
      ((fillBarPreTrim allowTrip allowed reqs r).1,
       (fillBarPreTrim allowTrip allowed reqs r).2.1) := by
    apply trimLoopF_of_le
    omega
  rw [htrim]
  have hmem : t ∈ (fillBarPreTrim allowTrip allowed reqs r).1 := by
    show t ∈ (padLoopF UNITS_PER_BAR (fillBarLoop (mkPool allowTrip allowed) 1000
      (reqs.map cloneToken) (sumUnits reqs) r).1
      (fillBarLoop (mkPool allowTrip allowed) 1000
        (reqs.map cloneToken) (sumUnits reqs) r).2.1).1
    obtain ⟨ext, he⟩ := fillBarLoop_pre (mkPool allowTrip allowed) 1000
      (reqs.map cloneToken) (sumUnits reqs) r
    obtain ⟨ext2, he2, _⟩ := padLoopF_ext UNITS_PER_BAR
      (fillBarLoop (mkPool allowTrip allowed) 1000
        (reqs.map cloneToken) (sumUnits reqs) r).1
      (fillBarLoop (mkPool allowTrip allowed) 1000
        (reqs.map cloneToken) (sumUnits reqs) r).2.1
    rw [he2, he, map_cloneToken]
    exact List.mem_append_left _ (List.mem_append_left _ ht)
  exact ((shuffle_perm _ _).mem_iff).2 hmem

/-- Every token of a produced bar comes from the required list, the
sampling pool, or is the padding token. -/
theorem fillBar_tokens_src (allowTrip : Bool) (allowed reqs : List Token) (r : Oracle)
    (hp : mkPool allowTrip allowed ≠ []) :
    ∀ t ∈ (fillBar allowTrip allowed reqs r).1,
      t ∈ reqs ∨ t ∈ mkPool allowTrip allowed ∨ t = padToken := by
  intro t ht
  rw [fillBar_shape] at ht
  have ht2 : t ∈ (trimLoopF 50 (fillBarPreTrim allowTrip allowed reqs r).1
      (fillBarPreTrim allowTrip allowed reqs r).2.1).1 :=
    ((shuffle_perm _ _).mem_iff).1 ht
  have ht3 : t ∈ (fillBarPreTrim allowTrip allowed reqs r).1 :=
    (trimLoopF_sublist 50 _ _).mem ht2
  obtain ⟨ext, he⟩ := fillBarLoop_pre (mkPool allowTrip allowed) 1000
    (reqs.map cloneToken) (sumUnits reqs) r
  obtain ⟨e1, he1, hm1⟩ := fillBarLoop_ext (mkPool allowTrip allowed) hp 1000
    (reqs.map cloneToken) (sumUnits reqs) r
  obtain ⟨ext2, he2, hm2⟩ := padLoopF_ext UNITS_PER_BAR
    (fillBarLoop (mkPool allowTrip allowed) 1000
      (reqs.map cloneToken) (sumUnits reqs) r).1
    (fillBarLoop (mkPool allowTrip allowed) 1000
      (reqs.map cloneToken) (sumUnits reqs) r).2.1
  have ht4 : t ∈ (padLoopF UNITS_PER_BAR
      (fillBarLoop (mkPool allowTrip allowed) 1000
        (reqs.map cloneToken) (sumUnits reqs) r).1
      (fillBarLoop (mkPool allowTrip allowed) 1000
        (reqs.map cloneToken) (sumUnits reqs) r).2.1).1 := ht3
  rw [he2, he1, map_cloneToken] at ht4
  rcases List.mem_append.1 ht4 with h | h
  · rcases List.mem_append.1 h with h2 | h2
    · exact Or.inl h2
    · obtain ⟨c, hc, hceq⟩ := hm1 t h2
      rw [hceq, cloneToken_eq]
      exact Or.inr (Or.inl hc)
  · exact Or.inr (Or.inr (hm2 t h))

/-- Bars never exceed the capacity (for required lists of at most 50
tokens, which covers every level's required list). -/
theorem fillBar_sum_le (allowTrip : Bool) (allowed reqs : List Token) (r : Oracle)
    (hlen : reqs.length ≤ 50) :
    sumUnits (fillBar allowTrip allowed reqs r).1 ≤ UNITS_PER_BAR := by
  by_cases h : sumUnits reqs ≤ UNITS_PER_BAR
  · rw [fillBar_sum_exact allowTrip allowed reqs r h]
  · rw [fillBar_shape, sumUnits_perm (shuffle_perm _ _)]
    have h1 := fillBarLoop_of_ge (mkPool allowTrip allowed) 1000 (reqs.map cloneToken)
      (sumUnits reqs) r (by omega)
    have h2 := padLoopF_of_ge UNITS_PER_BAR (reqs.map cloneToken) (sumUnits reqs) (by omega)
    have hpre : fillBarPreTrim allowTrip allowed reqs r =
        (reqs.map cloneToken, sumUnits reqs, r) := by
      calc fillBarPreTrim allowTrip allowed reqs r
          = ((padLoopF UNITS_PER_BAR
                (fillBarLoop (mkPool allowTrip allowed) 1000 (reqs.map cloneToken)
                  (sumUnits reqs) r).1
                (fillBarLoop (mkPool allowTrip allowed) 1000 (reqs.map cloneToken)
                  (sumUnits reqs) r).2.1).1,
             (padLoopF UNITS_PER_BAR
                (fillBarLoop (mkPool allowTrip allowed) 1000 (reqs.map cloneToken)
                  (sumUnits reqs) r).1
                (fillBarLoop (mkPool allowTrip allowed) 1000 (reqs.map cloneToken)
                  (sumUnits reqs) r).2.1).2,
             (fillBarLoop (mkPool allowTrip allowed) 1000 (reqs.map cloneToken)
                (sumUnits reqs) r).2.2) := rfl
        _ = ((padLoopF UNITS_PER_BAR (reqs.map cloneToken) (sumUnits reqs)).1,
             (padLoopF UNITS_PER_BAR (reqs.map cloneToken) (sumUnits reqs)).2, r) := by
              rw [h1]
        _ = (reqs.map cloneToken, sumUnits reqs, r) := by rw [h2]
    rw [hpre]
    have hsum : sumUnits (reqs.map cloneToken) = sumUnits reqs := by rw [map_cloneToken]
    have hlen2 : (reqs.map cloneToken).length ≤ 50 := by
      rw [map_cloneToken]; exact hlen
    rw [trimLoopF_sum 50 _ _ hsum]
    exact trimLoopF_le 50 _ _ hsum hlen2

/-! ## Unfolding equations for the generator -/

theorem genBuckets_def (cfg : LevelCfg) (r : Oracle) :
    genBuckets cfg r = partitionReqs (resolveRequired cfg r).1 (resolveRequired cfg r).2 := rfl

theorem generateForLevelCfg_def (cfg : LevelCfg) (r : Oracle) :
    generateForLevelCfg cfg r =
      ([(fillBar cfg.allowTriplets (allowedOf cfg) (genBuckets cfg r).1.1
          (genBuckets cfg r).2).1,
        (fillBar cfg.allowTriplets (allowedOf cfg) (genBuckets cfg r).1.2
          (fillBar cfg.allowTriplets (allowedOf cfg) (genBuckets cfg r).1.1
            (genBuckets cfg r).2).2).1],
       (fillBar cfg.allowTriplets (allowedOf cfg) (genBuckets cfg r).1.2
          (fillBar cfg.allowTriplets (allowedOf cfg) (genBuckets cfg r).1.1
            (genBuckets cfg r).2).2).2) := by
  unfold generateForLevelCfg
  rcases hb : genBuckets cfg r with ⟨buckets, r2⟩
  rcases h0 : fillBar cfg.allowTriplets (allowedOf cfg) buckets.1 r2 with ⟨bar0, r3⟩
  rcases h1 : fillBar cfg.allowTriplets (allowedOf cfg) buckets.2 r3 with ⟨bar1, r4⟩
  simp [h0, h1]

theorem resolveRequired_easy (r : Oracle) :
    resolveRequired easyCfg r = ([semibreveT, minimT, crotchetT, quaverT], r) := rfl

theorem resolveRequired_medium (r : Oracle) :
    resolveRequired mediumCfg r =
      ([semibreveT, minimT, crotchetT, quaverT, semiquaverT,
        dottedOf minimT, tripletTemplate], r) := rfl

theorem resolveRequired_difficult_len (r : Oracle) :
    (resolveRequired difficultCfg r).1.length = 3 := by
  show (((shuffle difficultCfg.allowed r).1.take
    (max 1 (difficultCfg.allowed.length / 2))).map typesD).length = 3
  rw [List.length_map, List.length_take]
  rw [(shuffle_perm difficultCfg.allowed r).length_eq]
  rfl

/-- When the required tokens already overflow the bar, the fill and pad
phases do nothing. -/
theorem fillBarPreTrim_of_ge (allowTrip : Bool) (allowed reqs : List Token) (r : Oracle)
    (h : ¬ sumUnits reqs < UNITS_PER_BAR) :
    fillBarPreTrim allowTrip allowed reqs r = (reqs.map cloneToken, sumUnits reqs, r) := by
  have h1 := fillBarLoop_of_ge (mkPool allowTrip allowed) 1000 (reqs.map cloneToken)
    (sumUnits reqs) r h
  have h2 := padLoopF_of_ge UNITS_PER_BAR (reqs.map cloneToken) (sumUnits reqs) h
  calc fillBarPreTrim allowTrip allowed reqs r
      = ((padLoopF UNITS_PER_BAR
            (fillBarLoop (mkPool allowTrip allowed) 1000 (reqs.map cloneToken)
              (sumUnits reqs) r).1
            (fillBarLoop (mkPool allowTrip allowed) 1000 (reqs.map cloneToken)
              (sumUnits reqs) r).2.1).1,
         (padLoopF UNITS_PER_BAR
            (fillBarLoop (mkPool allowTrip allowed) 1000 (reqs.map cloneToken)
              (sumUnits reqs) r).1
            (fillBarLoop (mkPool allowTrip allowed) 1000 (reqs.map cloneToken)
              (sumUnits reqs) r).2.1).2,
         (fillBarLoop (mkPool allowTrip allowed) 1000 (reqs.map cloneToken)
            (sumUnits reqs) r).2.2) := rfl
    _ = ((padLoopF UNITS_PER_BAR (reqs.map cloneToken) (sumUnits reqs)).1,
         (padLoopF UNITS_PER_BAR (reqs.map cloneToken) (sumUnits reqs)).2, r) := by
          rw [h1]
    _ = (reqs.map cloneToken, sumUnits reqs, r) := by rw [h2]

/-- Every sublist of the easy required list that overflows the bar is
trimmed back to exactly the capacity (a finite check over the 16
sublists). -/
theorem easy_overfull_trim :
    ∀ l ∈ ([semibreveT, minimT, crotchetT, quaverT] : List Token).sublists,
      UNITS_PER_BAR < sumUnits l → (trimLoopF 50 l (sumUnits l)).2 = UNITS_PER_BAR := by
  decide

/-- A bar filled from any sublist of the easy required list sums to
exactly the capacity. -/
theorem fillBar_easy_req (l : List Token)
    (hsub : l.Sublist [semibreveT, minimT, crotchetT, quaverT])
    (allowTrip : Bool) (allowed : List Token) (r : Oracle) :
    sumUnits (fillBar allowTrip allowed l r).1 = UNITS_PER_BAR := by
  by_cases h : sumUnits l ≤ UNITS_PER_BAR
  · exact fillBar_sum_exact allowTrip allowed l r h
  · rw [fillBar_shape, sumUnits_perm (shuffle_perm _ _),
      fillBarPreTrim_of_ge allowTrip allowed l r (by omega)]
    show sumUnits (trimLoopF 50 (l.map cloneToken) (sumUnits l)).1 = UNITS_PER_BAR
    rw [map_cloneToken]
    rw [trimLoopF_sum 50 l (sumUnits l) rfl]
    exact easy_overfull_trim l (List.mem_sublists.2 hsub) (by omega)

theorem resolveRequired_len_le (k : String) (cfg : LevelCfg) (hk : LEVELS k = some cfg)
    (r : Oracle) : (resolveRequired cfg r).1.length ≤ 50 := by
  simp only [LEVELS] at hk
  split_ifs at hk
  · obtain rfl : easyCfg = cfg := by injection hk
    rw [resolveRequired_easy]
    simp
  · obtain rfl : mediumCfg = cfg := by injection hk
    rw [resolveRequired_medium]
    simp
  · obtain rfl : difficultCfg = cfg := by injection hk
    rw [resolveRequired_difficult_len]
    omega

theorem genBuckets_sublist (cfg : LevelCfg) (r : Oracle) :
    ((genBuckets cfg r).1.1).Sublist (resolveRequired cfg r).1 ∧
    ((genBuckets cfg r).1.2).Sublist (resolveRequired cfg r).1 := by
  rw [genBuckets_def]
  exact partitionReqs_sublist _ _

set_option maxHeartbeats 1000000 in
/-- C1 (amended): every generated bar sums to at most 32 units; a bar
whose assigned required tokens fit within the capacity is filled to
exactly 32; and for the easy level every bar sums to exactly 32. -/
theorem claim1_theorem :
    (∀ (k : String) (cfg : LevelCfg), LEVELS k = some cfg → ∀ (r : Oracle),
       ∀ bar ∈ (generateForLevelCfg cfg r).1, sumUnits bar ≤ UNITS_PER_BAR) ∧
    (∀ (allowTrip : Bool) (allowed reqs : List Token) (r : Oracle),
       sumUnits reqs ≤ UNITS_PER_BAR →
       sumUnits (fillBar allowTrip allowed reqs r).1 = UNITS_PER_BAR) ∧
    (∀ (r : Oracle), ∀ bar ∈ (generateForLevelCfg easyCfg r).1,
       sumUnits bar = UNITS_PER_BAR) := by
  refine ⟨?_, fillBar_sum_exact, ?_⟩
  · intro k cfg hk r bar hbar
    have hlen := resolveRequired_len_le k cfg hk r
    have hsub := genBuckets_sublist cfg r
    rw [generateForLevelCfg_def] at hbar
    simp only [List.mem_cons, List.not_mem_nil, or_false] at hbar
    rcases hbar with rfl | rfl
    · exact fillBar_sum_le _ _ _ _ (le_trans hsub.1.length_le hlen)
    · exact fillBar_sum_le _ _ _ _ (le_trans hsub.2.length_le hlen)
  · intro r bar hbar
    have hsub1 : ((genBuckets easyCfg r).1.1).Sublist
        [semibreveT, minimT, crotchetT, quaverT] := by
      have h := (partitionReqs_sublist [semibreveT, minimT, crotchetT, quaverT] r).1
      rw [genBuckets_def, resolveRequired_easy]
      exact h
    have hsub2 : ((genBuckets easyCfg r).1.2).Sublist
        [semibreveT, minimT, crotchetT, quaverT] := by
      have h := (partitionReqs_sublist [semibreveT, minimT, crotchetT, quaverT] r).2
      rw [genBuckets_def, resolveRequired_easy]
      exact h
    rw [generateForLevelCfg_def] at hbar
    simp only [List.mem_cons, List.not_mem_nil, or_false] at hbar
    rcases hbar with rfl | rfl
    · exact fillBar_easy_req _ hsub1 _ _ _
    · exact fillBar_easy_req _ hsub2 _ _ _

theorem claim1_witness :
    (∀ bar ∈ (generateForLevelCfg mediumCfg (mkOracle [1, 2, 3])).1,
      sumUnits bar ≤ UNITS_PER_BAR) ∧
    sumUnits (fillBar false [] [quaverT] (mkOracle [])).1 = UNITS_PER_BAR ∧
    ∀ bar ∈ (generateForLevelCfg easyCfg (mkOracle [])).1, sumUnits bar = UNITS_PER_BAR :=
  ⟨claim1_theorem.1 "medium" mediumCfg rfl (mkOracle [1, 2, 3]),
   claim1_theorem.2.1 false [] [quaverT] (mkOracle []) (by decide),
   claim1_theorem.2.2 (mkOracle [])⟩

/-- C1 counterexample: with this oracle the medium generator emits the
rhythm `[[minim], [semibreve]]`, whose first bar sums to 16, not 32 (both
of its required tokens overflowed and the trim undershot, with no
re-padding after the trim). -/
theorem claim1_counterexample :
    (generateForLevelCfg mediumCfg (mkOracle [1, 0, 1, 1, 1, 0, 1])).1 =
      [[minimT], [semibreveT]] ∧
    ¬ (∀ bar ∈ (generateForLevelCfg mediumCfg (mkOracle [1, 0, 1, 1, 1, 0, 1])).1,
        sumUnits bar = UNITS_PER_BAR) := by
  constructor
  · decide
  · decide

/-- C7 (amended): during the random-fill and padding phases the
accumulated units never exceed the capacity whenever the required tokens
assigned to the bar fit (the loop guard discards overflowing samples and
padding stops at 32), and on such runs the trim loop is the identity.
The initial placement of required tokens, however, can exceed the
capacity, as a real medium-level run shows. -/
theorem claim7_theorem (allowTrip : Bool) (allowed reqs : List Token) (r : Oracle)
    (h : sumUnits reqs ≤ UNITS_PER_BAR) :
    (fillBarPreTrim allowTrip allowed reqs r).2.1 = UNITS_PER_BAR ∧
    trimLoopF 50 (fillBarPreTrim allowTrip allowed reqs r).1
      (fillBarPreTrim allowTrip allowed reqs r).2.1 =
      ((fillBarPreTrim allowTrip allowed reqs r).1,
       (fillBarPreTrim allowTrip allowed reqs r).2.1) := by
  obtain ⟨hu, _⟩ := fillBarPreTrim_exact allowTrip allowed reqs r h
  refine ⟨hu, ?_⟩
  apply trimLoopF_of_le
  omega

theorem claim7_witness :
    sumUnits [quaverT] ≤ UNITS_PER_BAR ∧
    ((fillBarPreTrim false [] [quaverT] (mkOracle [])).2.1 = UNITS_PER_BAR ∧
     trimLoopF 50 (fillBarPreTrim false [] [quaverT] (mkOracle [])).1
       (fillBarPreTrim false [] [quaverT] (mkOracle [])).2.1 =
       ((fillBarPreTrim false [] [quaverT] (mkOracle [])).1,
        (fillBarPreTrim false [] [quaverT] (mkOracle [])).2.1)) :=
  ⟨by decide, claim7_theorem false [] [quaverT] (mkOracle []) (by decide)⟩

/-- C7 counterexample: in a real medium-level run, bar 0 is assigned the
required tokens `[minim, dotted-minim]` (40 units), so the pre-trim
accumulated units are 40 > 32 and the defensive trim branch fires (it
pops the dotted minim, leaving a 16-unit bar). -/
theorem claim7_counterexample :
    (genBuckets mediumCfg (mkOracle [1, 0, 1, 1, 1, 0, 1])).1.1 =
      [minimT, dottedOf minimT] ∧
    (fillBarPreTrim mediumCfg.allowTriplets (allowedOf mediumCfg)
      [minimT, dottedOf minimT]
      (genBuckets mediumCfg (mkOracle [1, 0, 1, 1, 1, 0, 1])).2).2.1 = 40 ∧
    UNITS_PER_BAR < 40 ∧
    trimLoopF 50
      (fillBarPreTrim mediumCfg.allowTriplets (allowedOf mediumCfg)
        [minimT, dottedOf minimT]
        (genBuckets mediumCfg (mkOracle [1, 0, 1, 1, 1, 0, 1])).2).1
      40 = ([minimT], 16) := by
  refine ⟨by decide, by decide, by decide, by decide⟩

/-- C3 (amended): when each of the two required tokens of interest (the
dotted minim and the quaver triplet group) lands in a bucket whose
required tokens fit within the bar capacity, the generated medium rhythm
contains at least one dotted token and at least one triplet token. -/
theorem claim3_theorem (r : Oracle)
    (h1 : dottedOf minimT ∈ (genBuckets mediumCfg r).1.1 →
      sumUnits (genBuckets mediumCfg r).1.1 ≤ UNITS_PER_BAR)
    (h2 : dottedOf minimT ∈ (genBuckets mediumCfg r).1.2 →
      sumUnits (genBuckets mediumCfg r).1.2 ≤ UNITS_PER_BAR)
    (h3 : tripletTemplate ∈ (genBuckets mediumCfg r).1.1 →
      sumUnits (genBuckets mediumCfg r).1.1 ≤ UNITS_PER_BAR)
    (h4 : tripletTemplate ∈ (genBuckets mediumCfg r).1.2 →
      sumUnits (genBuckets mediumCfg r).1.2 ≤ UNITS_PER_BAR) :
    (∃ bar ∈ (generateForLevelCfg mediumCfg r).1, ∃ t ∈ bar, t.dots ≠ 0) ∧
    (∃ bar ∈ (generateForLevelCfg mediumCfg r).1, ∃ t ∈ bar, t.isTriplet = true) := by
  have hin : ∀ t : Token, t ∈ (resolveRequired mediumCfg r).1 →
      t ∈ (genBuckets mediumCfg r).1.1 ∨ t ∈ (genBuckets mediumCfg r).1.2 := by
    intro t ht
    rw [genBuckets_def]
    exact partitionReqs_mem _ _ t ht
  have hbars : ∀ t : Token,
      (t ∈ (genBuckets mediumCfg r).1.1 → sumUnits (genBuckets mediumCfg r).1.1 ≤ UNITS_PER_BAR) →
      (t ∈ (genBuckets mediumCfg r).1.2 → sumUnits (genBuckets mediumCfg r).1.2 ≤ UNITS_PER_BAR) →
      t ∈ (resolveRequired mediumCfg r).1 →
      ∃ bar ∈ (generateForLevelCfg mediumCfg r).1, t ∈ bar := by
    intro t ha hb ht
    rcases hin t ht with hm | hm
    · refine ⟨(fillBar mediumCfg.allowTriplets (allowedOf mediumCfg)
        (genBuckets mediumCfg r).1.1 (genBuckets mediumCfg r).2).1, ?_, ?_⟩
      · rw [generateForLevelCfg_def]
        exact List.mem_cons_self _ _
      · exact fillBar_keeps_reqs mediumCfg.allowTriplets (allowedOf mediumCfg)
          (genBuckets mediumCfg r).1.1 (genBuckets mediumCfg r).2 (ha hm) t hm
    · refine ⟨(fillBar mediumCfg.allowTriplets (allowedOf mediumCfg)
        (genBuckets mediumCfg r).1.2
        (fillBar mediumCfg.allowTriplets (allowedOf mediumCfg)
          (genBuckets mediumCfg r).1.1 (genBuckets mediumCfg r).2).2).1, ?_, ?_⟩
      · rw [generateForLevelCfg_def]
        exact List.mem_cons_of_mem _ (List.mem_cons_self _ _)
      · exact fillBar_keeps_reqs mediumCfg.allowTriplets (allowedOf mediumCfg)
          (genBuckets mediumCfg r).1.2 _ (hb hm) t hm
  have hdmem : dottedOf minimT ∈ (resolveRequired mediumCfg r).1 := by
    rw [resolveRequired_medium]
    simp
  have htmem : tripletTemplate ∈ (resolveRequired mediumCfg r).1 := by
    rw [resolveRequired_medium]
    simp
  obtain ⟨bar1, hb1, hm1⟩ := hbars (dottedOf minimT) h1 h2 hdmem
  obtain ⟨bar2, hb2, hm2⟩ := hbars tripletTemplate h3 h4 htmem
  exact ⟨⟨bar1, hb1, dottedOf minimT, hm1, by decide⟩,
    ⟨bar2, hb2, tripletTemplate, hm2, by decide⟩⟩

theorem claim3_witness :
    ((dottedOf minimT ∈ (genBuckets mediumCfg (mkOracle [0, 0, 0, 0, 0, 1, 1])).1.1 →
      sumUnits (genBuckets mediumCfg (mkOracle [0, 0, 0, 0, 0, 1, 1])).1.1 ≤ UNITS_PER_BAR) ∧
     (dottedOf minimT ∈ (genBuckets mediumCfg (mkOracle [0, 0, 0, 0, 0, 1, 1])).1.2 →
      sumUnits (genBuckets mediumCfg (mkOracle [0, 0, 0, 0, 0, 1, 1])).1.2 ≤ UNITS_PER_BAR)) ∧
    (∃ bar ∈ (generateForLevelCfg mediumCfg (mkOracle [0, 0, 0, 0, 0, 1, 1])).1,
      ∃ t ∈ bar, t.dots ≠ 0) ∧
    (∃ bar ∈ (generateForLevelCfg mediumCfg (mkOracle [0, 0, 0, 0, 0, 1, 1])).1,
      ∃ t ∈ bar, t.isTriplet = true) := by
  refine ⟨⟨by decide, by decide⟩, ?_⟩
  exact claim3_theorem (mkOracle [0, 0, 0, 0, 0, 1, 1])
    (by decide) (by decide) (by decide) (by decide)

/-- C3 counterexample: with this oracle the medium generator returns
`[[semibreve], [minim]]`, a rhythm containing no dotted token and no
triplet token (both required tokens were trimmed away from overfull
bars). -/
theorem claim3_counterexample :
    (generateForLevelCfg mediumCfg (mkOracle [0, 1, 0, 0, 0, 1, 0])).1 =
      [[semibreveT], [minimT]] ∧
    ¬ (∃ bar ∈ (generateForLevelCfg mediumCfg (mkOracle [0, 1, 0, 0, 0, 1, 0])).1,
        ∃ t ∈ bar, t.dots ≠ 0) ∧
    ¬ (∃ bar ∈ (generateForLevelCfg mediumCfg (mkOracle [0, 1, 0, 0, 0, 1, 0])).1,
        ∃ t ∈ bar, t.isTriplet = true) := by
  refine ⟨by decide, by decide, by decide⟩

set_option maxHeartbeats 1000000 in
/-- C6 (amended): every token of an easy-level bar is one of the four
allowed catalog types or the 1-unit padding token; dotted, triplet and
semiquaver tokens never appear.  The padding token (a demisemiquaver) can
appear, via the fallback that runs when the 1000-try fill budget is
exhausted. -/
theorem claim6_theorem (r : Oracle) :
    ∀ bar ∈ (generateForLevelCfg easyCfg r).1, ∀ t ∈ bar,
      t ∈ [semibreveT, minimT, crotchetT, quaverT, padToken] ∧
      t.dots = 0 ∧ t.isTriplet = false ∧ t.name ≠ "semiquaver" := by
  have key : ∀ t : Token, t ∈ [semibreveT, minimT, crotchetT, quaverT, padToken] →
      t.dots = 0 ∧ t.isTriplet = false ∧ t.name ≠ "semiquaver" := by decide
  have hwiden : ∀ t : Token, t ∈ [semibreveT, minimT, crotchetT, quaverT] →
      t ∈ [semibreveT, minimT, crotchetT, quaverT, padToken] := by decide
  have hpool : mkPool easyCfg.allowTriplets (allowedOf easyCfg) =
      [semibreveT, minimT, crotchetT, quaverT] := by decide
  have hsub1 : ((genBuckets easyCfg r).1.1).Sublist
      [semibreveT, minimT, crotchetT, quaverT] := by
    have h := (partitionReqs_sublist [semibreveT, minimT, crotchetT, quaverT] r).1
    rw [genBuckets_def, resolveRequired_easy]
    exact h
  have hsub2 : ((genBuckets easyCfg r).1.2).Sublist
      [semibreveT, minimT, crotchetT, quaverT] := by
    have h := (partitionReqs_sublist [semibreveT, minimT, crotchetT, quaverT] r).2
    rw [genBuckets_def, resolveRequired_easy]
    exact h
  have hne : mkPool easyCfg.allowTriplets (allowedOf easyCfg) ≠ [] := by
    rw [hpool]; simp
  intro bar hbar t ht
  rw [generateForLevelCfg_def] at hbar
  simp only [List.mem_cons, List.not_mem_nil, or_false] at hbar
  suffices hmem : t ∈ [semibreveT, minimT, crotchetT, quaverT, padToken] from
    ⟨hmem, key t hmem⟩
  rcases hbar with rfl | rfl
  · rcases fillBar_tokens_src easyCfg.allowTriplets (allowedOf easyCfg)
      (genBuckets easyCfg r).1.1 (genBuckets easyCfg r).2 hne t ht with h | h | h
    · exact hwiden t (hsub1.subset h)
    · rw [hpool] at h
      exact hwiden t h
    · rw [h]; decide
  · rcases fillBar_tokens_src easyCfg.allowTriplets (allowedOf easyCfg)
      (genBuckets easyCfg r).1.2 _ hne t ht with h | h | h
    · exact hwiden t (hsub2.subset h)
    · rw [hpool] at h
      exact hwiden t h
    · rw [h]; decide

theorem claim6_witness :
    semibreveT ∈ [semibreveT, minimT, crotchetT, quaverT, padToken] ∧
    semibreveT.dots = 0 ∧ semibreveT.isTriplet = false ∧ semibreveT.name ≠ "semiquaver" :=
  claim6_theorem (mkOracle []) ((generateForLevelCfg easyCfg (mkOracle [])).1.getD 0 [])
    (by decide) semibreveT (by decide)

set_option maxRecDepth 1000000 in
set_option maxHeartbeats 4000000 in
/-- C6 counterexample: with this oracle bar 1 of an easy-level rhythm
starts as a lone quaver, the 1000 fill tries all sample the semibreve
(which never fits), and the padding fallback then fills the remaining 28
units with demisemiquaver tokens, a type outside the easy allowed set. -/
theorem claim6_counterexample :
    padToken ∈ ((generateForLevelCfg easyCfg (mkOracle [0, 0, 0, 1])).1.getD 1 []) ∧
    ¬ (∀ bar ∈ (generateForLevelCfg easyCfg (mkOracle [0, 0, 0, 1])).1, ∀ t ∈ bar,
        t ∈ [semibreveT, minimT, crotchetT, quaverT]) := by
  refine ⟨by decide, by decide⟩

/-! ## The option builder -/

theorem shuffle_length {α : Type} [Inhabited α] (l : List α) (r : Oracle) :
    ((shuffle l r).1).length = l.length :=
  (shuffle_perm l r).length_eq

theorem withIdx_length {α : Type} : ∀ (l : List α) (i : Nat), (withIdx l i).length = l.length
  | [], _ => rfl
  | _ :: as, i => by simp [withIdx, withIdx_length as (i + 1)]

theorem withIdx_map_snd {α : Type} :
    ∀ (l : List α) (i : Nat), (withIdx l i).map Prod.snd = l
  | [], _ => rfl
  | a :: as, i => by simp [withIdx, withIdx_map_snd as (i + 1)]

theorem withIdx_fst_ge {α : Type} :
    ∀ (l : List α) (i : Nat), ∀ p ∈ withIdx l i, i ≤ p.1
  | [], _, p, hp => absurd hp (List.not_mem_nil p)
  | a :: as, i, p, hp => by
    rcases List.mem_cons.1 hp with h | h
    · rw [h]
    · exact le_trans (Nat.le_succ i) (withIdx_fst_ge as (i + 1) p h)

theorem withIdx_fst_inj {α : Type} :
    ∀ (l : List α) (i : Nat), ∀ p ∈ withIdx l i, ∀ q ∈ withIdx l i, p.1 = q.1 → p = q
  | [], _, p, hp, _, _, _ => absurd hp (List.not_mem_nil p)
  | a :: as, i, p, hp, q, hq, hpq => by
    rcases List.mem_cons.1 hp with h1 | h1 <;> rcases List.mem_cons.1 hq with h2 | h2
    · rw [h1, h2]
    · exfalso
      have := withIdx_fst_ge as (i + 1) q h2
      rw [h1] at hpq
      simp at hpq
      omega
    · exfalso
      have := withIdx_fst_ge as (i + 1) p h1
      rw [h2] at hpq
      simp at hpq
      omega
    · exact withIdx_fst_inj as (i + 1) p h1 q h2 hpq

theorem findIdx_spec {α : Type} (p : α → Bool) (d : α) :
    ∀ (l : List α), (∃ x ∈ l, p x = true) →
      l.findIdx p < l.length ∧ p (l.getD (l.findIdx p) d) = true ∧
        l.getD (l.findIdx p) d ∈ l
  | [], hex => by
    obtain ⟨x, hx, _⟩ := hex
    exact absurd hx (List.not_mem_nil x)
  | a :: l, hex => by
    rw [List.findIdx_cons]
    cases hpa : p a
    · simp only [cond_false]
      have hex2 : ∃ x ∈ l, p x = true := by
        obtain ⟨x, hx, hpx⟩ := hex
        rcases List.mem_cons.1 hx with h | h
        · rw [h] at hpx
          rw [hpx] at hpa
          exact absurd hpa (by simp)
        · exact ⟨x, h, hpx⟩
      obtain ⟨h1, h2, h3⟩ := findIdx_spec p d l hex2
      refine ⟨by simpa using Nat.succ_lt_succ h1, ?_, ?_⟩
      · simpa using h2
      · exact List.mem_cons_of_mem a (by simpa using h3)
    · simp only [cond_true]
      exact ⟨by simp, by simpa using hpa, by simp⟩

theorem getD_map_of_lt {α β : Type} (f : α → β) (l : List α) (n : Nat)
    (hn : n < l.length) (d : β) (d2 : α) : (l.map f).getD n d = f (l.getD n d2) := by
  rw [List.getD_eq_getElem (l.map f) d (by simpa using hn), List.getElem_map,
    List.getD_eq_getElem l d2 hn]

theorem genOptsLoop_succ (cfg : LevelCfg) (fuel : Nat)
    (options : List (List (List Token))) (seen : List String) (r : Oracle) :
    genOptsLoop cfg (fuel + 1) options seen r =
      if options.length < 4 then
        (if barsKey (generateForLevelCfg cfg r).1 ∈ seen
         then genOptsLoop cfg fuel options seen (generateForLevelCfg cfg r).2
         else genOptsLoop cfg fuel (options ++ [(generateForLevelCfg cfg r).1])
           (seen ++ [barsKey (generateForLevelCfg cfg r).1]) (generateForLevelCfg cfg r).2)
      else (options, seen, r) := by
  rcases hg : generateForLevelCfg cfg r with ⟨cand, r1⟩
  simp only [genOptsLoop, hg]

theorem genOptsLoop_ext (cfg : LevelCfg) :
    ∀ (fuel : Nat) (options : List (List (List Token))) (seen : List String) (r : Oracle),
      ∃ ext, (genOptsLoop cfg fuel options seen r).1 = options ++ ext
  | 0, options, seen, r => ⟨[], by simp [genOptsLoop]⟩
  | fuel + 1, options, seen, r => by
    rw [genOptsLoop_succ]
    by_cases hl : options.length < 4
    · rw [if_pos hl]
      by_cases hs : barsKey (generateForLevelCfg cfg r).1 ∈ seen
      · rw [if_pos hs]
        exact genOptsLoop_ext cfg fuel options seen _
      · rw [if_neg hs]
        obtain ⟨ext, he⟩ := genOptsLoop_ext cfg fuel
          (options ++ [(generateForLevelCfg cfg r).1])
          (seen ++ [barsKey (generateForLevelCfg cfg r).1]) (generateForLevelCfg cfg r).2
        exact ⟨(generateForLevelCfg cfg r).1 :: ext, by simpa using he⟩
    · rw [if_neg hl]
      exact ⟨[], by simp⟩

theorem genOptsLoop_len_le (cfg : LevelCfg) :
    ∀ (fuel : Nat) (options : List (List (List Token))) (seen : List String) (r : Oracle),
      options.length ≤ 4 → (genOptsLoop cfg fuel options seen r).1.length ≤ 4
  | 0, options, seen, r, h => h
  | fuel + 1, options, seen, r, h => by
    rw [genOptsLoop_succ]
    by_cases hl : options.length < 4
    · rw [if_pos hl]
      by_cases hs : barsKey (generateForLevelCfg cfg r).1 ∈ seen
      · rw [if_pos hs]
        exact genOptsLoop_len_le cfg fuel options seen _ h
      · rw [if_neg hs]
        refine genOptsLoop_len_le cfg fuel _ _ _ ?_
        rw [List.length_append]
        simp
        omega
    · rw [if_neg hl]
      exact h

theorem genOptsLoop_nodup (cfg : LevelCfg) :
    ∀ (fuel : Nat) (options : List (List (List Token))) (seen : List String) (r : Oracle),
      (options.map barsKey).Nodup → (∀ s ∈ options.map barsKey, s ∈ seen) →
      (((genOptsLoop cfg fuel options seen r).1).map barsKey).Nodup
  | 0, options, seen, r, h1, _ => by simpa [genOptsLoop] using h1
  | fuel + 1, options, seen, r, h1, h2 => by
    rw [genOptsLoop_succ]
    by_cases hl : options.length < 4
    · rw [if_pos hl]
      by_cases hs : barsKey (generateForLevelCfg cfg r).1 ∈ seen
      · rw [if_pos hs]
        exact genOptsLoop_nodup cfg fuel options seen _ h1 h2
      · rw [if_neg hs]
        refine genOptsLoop_nodup cfg fuel _ _ _ ?_ ?_
        · rw [List.map_append]
          refine List.Nodup.append h1 (by simp) ?_
          intro a ha hb
          simp only [List.map_cons, List.map_nil, List.mem_singleton] at hb
          rw [hb] at ha
          exact hs (h2 _ ha)
        · intro s hsmem
          rw [List.map_append] at hsmem
          rcases List.mem_append.1 hsmem with h | h
          · exact List.mem_append_left _ (h2 s h)
          · simp only [List.map_cons, List.map_nil, List.mem_singleton] at h
            rw [h]
            exact List.mem_append_right _ (by simp)
    · rw [if_neg hl]
      simpa using h1

theorem generateOptionsCfg_def (cfg : LevelCfg) (c : List (List Token)) (r : Oracle) :
    generateOptionsCfg cfg c r =
      (((shuffle (withIdx (padOptions (genOptsLoop cfg 200 [c] [barsKey c] r).1 c) 0)
          (genOptsLoop cfg 200 [c] [barsKey c] r).2.2).1.map Prod.snd,
        (shuffle (withIdx (padOptions (genOptsLoop cfg 200 [c] [barsKey c] r).1 c) 0)
          (genOptsLoop cfg 200 [c] [barsKey c] r).2.2).1.findIdx (fun p => p.1 == 0)),
       (shuffle (withIdx (padOptions (genOptsLoop cfg 200 [c] [barsKey c] r).1 c) 0)
          (genOptsLoop cfg 200 [c] [barsKey c] r).2.2).2) := by
  unfold generateOptionsCfg
  rcases h1 : genOptsLoop cfg 200 [c] [barsKey c] r with ⟨opts1, seen1, r1⟩
  rcases h2 : shuffle (withIdx (padOptions opts1 c) 0) r1 with ⟨sp, r2⟩
  simp [h2]

theorem padOptions_len (l : List (List (List Token))) (c : List (List Token))
    (h : l.length ≤ 4) : (padOptions l c).length = 4 := by
  unfold padOptions
  rw [List.length_append, List.length_replicate]
  omega

set_option maxHeartbeats 1000000 in
/-- C2: `generateOptions` always returns exactly 4 options and a
`correctIndex` below 4, and the option at `correctIndex` is the correct
rhythm itself, so its canonical key equals the key of the rhythm passed
in.  (The loop seeds the list with the correct bars, padding only ever
appends, and the final shuffle is a permutation whose index tags identify
the original entry 0.) -/
theorem claim2_theorem (k : String) (cfg : LevelCfg) (hk : LEVELS k = some cfg)
    (c : List (List Token)) (r : Oracle) :
    (generateOptionsCfg cfg c r).1.1.length = 4 ∧
    (generateOptionsCfg cfg c r).1.2 < 4 ∧
    barsKey ((generateOptionsCfg cfg c r).1.1.getD ((generateOptionsCfg cfg c r).1.2) []) =
      barsKey c := by
  clear hk
  rw [generateOptionsCfg_def]
  obtain ⟨ext, hext⟩ := genOptsLoop_ext cfg 200 [c] [barsKey c] r
  have hlen1 : (genOptsLoop cfg 200 [c] [barsKey c] r).1.length ≤ 4 :=
    genOptsLoop_len_le cfg 200 [c] [barsKey c] r (by simp)
  set opts1 := (genOptsLoop cfg 200 [c] [barsKey c] r).1 with hopts1
  set r1 := (genOptsLoop cfg 200 [c] [barsKey c] r).2.2 with hr1
  have hopts2 : padOptions opts1 c = c :: (ext ++ List.replicate (4 - opts1.length)
      (cloneBars c)) := by
    unfold padOptions
    rw [hext]
    simp
  have hlen2 : (padOptions opts1 c).length = 4 := padOptions_len opts1 c hlen1
  set pairs := withIdx (padOptions opts1 c) 0 with hpairs
  have hhead : (0, c) ∈ pairs := by
    rw [hpairs, hopts2]
    exact List.mem_cons_self _ _
  have hperm := shuffle_perm pairs r1
  set shuffled := (shuffle pairs r1).1 with hshuffled
  have hlen3 : shuffled.length = 4 := by
    rw [hperm.length_eq, hpairs, withIdx_length, hlen2]
  have hex : ∃ x ∈ shuffled, (fun p : Nat × List (List Token) => p.1 == 0) x = true :=
    ⟨(0, c), hperm.mem_iff.2 hhead, by simp⟩
  obtain ⟨hlt, hp, hmem⟩ := findIdx_spec (fun p : Nat × List (List Token) => p.1 == 0)
    (0, []) shuffled hex
  set ci := shuffled.findIdx (fun p => p.1 == 0) with hci
  have hfound : shuffled.getD ci (0, []) = (0, c) := by
    have h1 : shuffled.getD ci (0, []) ∈ pairs := hperm.mem_iff.1 hmem
    have h2 : (shuffled.getD ci (0, [])).1 = 0 := by
      have := hp
      simpa using this
    exact withIdx_fst_inj (padOptions opts1 c) 0 _ h1 (0, c) hhead (by rw [h2])
  clear_value ci shuffled pairs r1 opts1
  refine ⟨?_, ?_, ?_⟩
  · rw [List.length_map, hlen3]
  · show ci < 4
    exact hlen3 ▸ hlt
  · show barsKey ((shuffled.map Prod.snd).getD ci []) = barsKey c
    rw [getD_map_of_lt Prod.snd shuffled ci hlt [] (0, [])]
    rw [hfound]

theorem claim2_witness :
    (generateOptionsCfg easyCfg [[semibreveT], [semibreveT]] (mkOracle [])).1.1.length = 4 ∧
    (generateOptionsCfg easyCfg [[semibreveT], [semibreveT]] (mkOracle [])).1.2 < 4 ∧
    barsKey ((generateOptionsCfg easyCfg [[semibreveT], [semibreveT]] (mkOracle [])).1.1.getD
      ((generateOptionsCfg easyCfg [[semibreveT], [semibreveT]] (mkOracle [])).1.2) []) =
      barsKey [[semibreveT], [semibreveT]] :=
  claim2_theorem "easy" easyCfg rfl [[semibreveT], [semibreveT]] (mkOracle [])

theorem padOptions_of_len4 (l : List (List (List Token))) (c : List (List Token))
    (h : l.length = 4) : padOptions l c = l := by
  unfold padOptions
  rw [h]
  simp

set_option maxHeartbeats 1000000 in
/-- C4: when the dedup loop accumulates 4 options within its 200-attempt
budget (so the clone-padding fallback contributes nothing), the 4
returned options have pairwise-distinct canonical keys: the loop admits a
candidate only if its key is absent from the seen set, and the final
shuffle only permutes. -/
theorem claim4_theorem (k : String) (cfg : LevelCfg) (hk : LEVELS k = some cfg)
    (c : List (List Token)) (r : Oracle)
    (hfull : (genOptsLoop cfg 200 [c] [barsKey c] r).1.length = 4) :
    (((generateOptionsCfg cfg c r).1.1).map barsKey).Nodup := by
  clear hk
  have hnd : (((genOptsLoop cfg 200 [c] [barsKey c] r).1).map barsKey).Nodup :=
    genOptsLoop_nodup cfg 200 [c] [barsKey c] r (by simp) (by simp)
  rw [generateOptionsCfg_def]
  set opts1 := (genOptsLoop cfg 200 [c] [barsKey c] r).1 with hopts1
  set r1 := (genOptsLoop cfg 200 [c] [barsKey c] r).2.2 with hr1
  have hpad : padOptions opts1 c = opts1 := padOptions_of_len4 opts1 c hfull
  have hperm := shuffle_perm (withIdx (padOptions opts1 c) 0) r1
  set shuffled := (shuffle (withIdx (padOptions opts1 c) 0) r1).1 with hshuffled
  clear_value shuffled r1 opts1
  show ((shuffled.map Prod.snd).map barsKey).Nodup
  have hperm2 : (shuffled.map Prod.snd).Perm
      ((withIdx (padOptions opts1 c) 0).map Prod.snd) :=
    hperm.map Prod.snd
  rw [withIdx_map_snd, hpad] at hperm2
  exact ((hperm2.map barsKey).nodup_iff).2 hnd

set_option maxHeartbeats 2000000 in
theorem claim4_witness :
    (genOptsLoop easyCfg 200 [[[semibreveT], [semibreveT]]]
      [barsKey [[semibreveT], [semibreveT]]]
      (mkOracle ([0, 0, 0, 0, 0, 1, 1, 0, 0] ++ [0, 0, 0, 0, 0, 2, 2, 2, 2, 0, 0, 0, 0] ++
        [0, 0, 0, 0, 0, 1, 2, 2, 0, 0, 0] ++ [0, 0, 0, 0]))).1.length = 4 ∧
    (((generateOptionsCfg easyCfg [[semibreveT], [semibreveT]]
      (mkOracle ([0, 0, 0, 0, 0, 1, 1, 0, 0] ++ [0, 0, 0, 0, 0, 2, 2, 2, 2, 0, 0, 0, 0] ++
        [0, 0, 0, 0, 0, 1, 2, 2, 0, 0, 0] ++ [0, 0, 0, 0]))).1.1).map barsKey).Nodup :=
  ⟨by decide,
   claim4_theorem "easy" easyCfg rfl [[semibreveT], [semibreveT]]
     (mkOracle ([0, 0, 0, 0, 0, 1, 1, 0, 0] ++ [0, 0, 0, 0, 0, 2, 2, 2, 2, 0, 0, 0, 0] ++
       [0, 0, 0, 0, 0, 1, 2, 2, 0, 0, 0] ++ [0, 0, 0, 0])) (by decide)⟩

/-! ## Playback timing and clone padding -/

set_option maxRecDepth 10000 in
/-- `secondsPerUnit` as `playRhythm` computes it is exactly `5 / 64`
(scaled: `5 * 2 ^ 114` `SCALE`-ths), matching the binary64 value
`0.078125`. -/
theorem spuF_val : spuF = 5 * 2 ^ 114 := by decide

set_option maxRecDepth 10000 in
/-- The start cursor `0.1` rounds to the binary64 value
`3602879701896397 / 2 ^ 55` (scaled: `3602879701896397 * 2 ^ 65`
`SCALE`-ths). -/
theorem startCursorF_val : startCursorF = 3602879701896397 * 2 ^ 65 := by decide

set_option maxRecDepth 10000 in
set_option maxHeartbeats 1000000 in
/-- C9 (amended): a triplet-group token (8 units) schedules exactly 3
clicks.  In the idealized exact-rational reading the clicks sit at
`cursor`, `cursor + (8/3)*spu` and `cursor + 2*(8/3)*spu` and the
cursor advances by exactly `8 * spu`, the same advance as a plain
8-unit token (the crotchet).  In the binary64 arithmetic the program
performs, the three clicks and the final cursor are the corresponding
chains of rounded operations `fadd64`/`fmul64`/`fdiv64`, which need not
realize the exact spacing or total. -/
theorem claim9_theorem :
    (∀ (spu : ℚ), 0 < spu → ∀ (cursor : ℚ),
      (scheduleToken spu cursor tripletTemplate).1.length = 3 ∧
      (scheduleToken spu cursor tripletTemplate).1 =
        [cursor, cursor + (8 / 3) * spu, cursor + (8 / 3) * spu + (8 / 3) * spu] ∧
      (scheduleToken spu cursor tripletTemplate).2 = cursor + 8 * spu ∧
      (scheduleToken spu cursor tripletTemplate).2 =
        (scheduleToken spu cursor crotchetT).2) ∧
    (∀ (spu cursor : Nat),
      (scheduleTokenF spu cursor tripletTemplate).1.length = 3 ∧
      (scheduleTokenF spu cursor tripletTemplate).1 =
        [cursor,
         fadd64 cursor (fmul64 (fdiv64 (8 * SCALE) (3 * SCALE)) spu),
         fadd64 (fadd64 cursor (fmul64 (fdiv64 (8 * SCALE) (3 * SCALE)) spu))
           (fmul64 (fdiv64 (8 * SCALE) (3 * SCALE)) spu)] ∧
      (scheduleTokenF spu cursor tripletTemplate).2 =
        fadd64 (fadd64 (fadd64 cursor (fmul64 (fdiv64 (8 * SCALE) (3 * SCALE)) spu))
            (fmul64 (fdiv64 (8 * SCALE) (3 * SCALE)) spu))
          (fmul64 (fdiv64 (8 * SCALE) (3 * SCALE)) spu)) := by
  constructor
  · intro spu hspu cursor
    have hsched : scheduleToken spu cursor tripletTemplate =
        tripClicks 3 cursor (((8 : Nat) : ℚ) / 3 * spu) := rfl
    have htrip : tripClicks 3 cursor (((8 : Nat) : ℚ) / 3 * spu) =
        ([cursor, cursor + ((8 : Nat) : ℚ) / 3 * spu,
          cursor + ((8 : Nat) : ℚ) / 3 * spu + ((8 : Nat) : ℚ) / 3 * spu],
         cursor + ((8 : Nat) : ℚ) / 3 * spu + ((8 : Nat) : ℚ) / 3 * spu +
           ((8 : Nat) : ℚ) / 3 * spu) := by
      simp [tripClicks]
    rw [hsched, htrip]
    have hcast : ((8 : Nat) : ℚ) = 8 := by norm_num
    refine ⟨rfl, by rw [hcast], by rw [hcast]; ring, ?_⟩
    have hcrot : (scheduleToken spu cursor crotchetT).2 =
        cursor + ((8 : Nat) : ℚ) * spu := rfl
    rw [hcrot, hcast]
    ring
  · intro spu cursor
    exact ⟨rfl, rfl, rfl⟩

theorem claim9_witness :
    (0 : ℚ) < 1 ∧
    ((scheduleToken 1 0 tripletTemplate).1.length = 3 ∧
     (scheduleToken 1 0 tripletTemplate).1 =
       [0, 0 + (8 / 3) * 1, 0 + (8 / 3) * 1 + (8 / 3) * 1] ∧
     (scheduleToken 1 0 tripletTemplate).2 = 0 + 8 * 1 ∧
     (scheduleToken 1 0 tripletTemplate).2 = (scheduleToken 1 0 crotchetT).2) ∧
    ((scheduleTokenF spuF startCursorF tripletTemplate).1.length = 3 ∧
     (scheduleTokenF spuF startCursorF tripletTemplate).1 =
       [startCursorF,
        fadd64 startCursorF (fmul64 (fdiv64 (8 * SCALE) (3 * SCALE)) spuF),
        fadd64 (fadd64 startCursorF (fmul64 (fdiv64 (8 * SCALE) (3 * SCALE)) spuF))
          (fmul64 (fdiv64 (8 * SCALE) (3 * SCALE)) spuF)] ∧
     (scheduleTokenF spuF startCursorF tripletTemplate).2 =
       fadd64 (fadd64 (fadd64 startCursorF (fmul64 (fdiv64 (8 * SCALE) (3 * SCALE)) spuF))
           (fmul64 (fdiv64 (8 * SCALE) (3 * SCALE)) spuF))
         (fmul64 (fdiv64 (8 * SCALE) (3 * SCALE)) spuF)) :=
  ⟨by norm_num, claim9_theorem.1 1 (by norm_num) 0, claim9_theorem.2 spuF startCursorF⟩

set_option maxRecDepth 10000 in
/-- C9 counterexample: at the program's own `secondsPerUnit = 0.078125`
and the start cursor `double(0.1)`, the binary64 triplet walk still
fires 3 clicks, but the cursor's total advance differs from
`8 * secondsPerUnit` and the final cursor differs from a plain 8-unit
token's: the exact-arithmetic law fails for the doubles the program
computes. -/
theorem claim9_counterexample :
    spuF = 5 * 2 ^ 114 ∧
    startCursorF = 3602879701896397 * 2 ^ 65 ∧
    (scheduleTokenF spuF startCursorF tripletTemplate).1.length = 3 ∧
    toQ (scheduleTokenF spuF startCursorF tripletTemplate).2 - toQ startCursorF ≠
      8 * toQ spuF ∧
    (scheduleTokenF spuF startCursorF tripletTemplate).2 ≠
      (scheduleTokenF spuF startCursorF crotchetT).2 := by
  have h2 : (scheduleTokenF spuF startCursorF tripletTemplate).2 =
      963690296944063830766517011091554304 := by decide
  refine ⟨by decide, by decide, by decide, ?_, by decide⟩
  rw [h2, startCursorF_val, spuF_val]
  norm_num [toQ, SCALE]

/-- C10: per-token shallow copying preserves the canonical key, so every
clone the fallback padding of `generateOptions` appends is canonically
equal to the correct rhythm. -/
theorem claim10_theorem :
    (∀ bars, barsKey (cloneBars bars) = barsKey bars) ∧
    (∀ (cfg : LevelCfg) (c : List (List Token)) (r : Oracle),
      ∀ o ∈ List.replicate (4 - (genOptsLoop cfg 200 [c] [barsKey c] r).1.length)
        (cloneBars c), barsKey o = barsKey c) := by
  have h1 : ∀ bars, barsKey (cloneBars bars) = barsKey bars := by
    intro bars
    rw [cloneBars_eq]
  refine ⟨h1, ?_⟩
  intro cfg c r o ho
  rw [List.eq_of_mem_replicate ho, h1]

set_option maxRecDepth 100000 in
set_option maxHeartbeats 4000000 in
theorem claim10_witness :
    cloneBars [[semibreveT], [semibreveT]] ∈
      List.replicate (4 - (genOptsLoop easyCfg 200 [[[semibreveT], [semibreveT]]]
        [barsKey [[semibreveT], [semibreveT]]] (mkOracle [])).1.length)
        (cloneBars [[semibreveT], [semibreveT]]) ∧
    barsKey (cloneBars [[semibreveT], [semibreveT]]) = barsKey [[semibreveT], [semibreveT]] :=
  ⟨by decide,
   claim10_theorem.2 easyCfg [[semibreveT], [semibreveT]] (mkOracle []) _ (by decide)⟩

/-! ## Injectivity of the canonical key on the generator's token universe -/

theorem listPre_iff : ∀ (a b : List Char), listPre a b = true ↔ ∃ t, a ++ t = b
  | [], b => by simp [listPre]
  | x :: xs, [] => by
    simp only [listPre]
    constructor
    · intro h
      exact absurd h (by simp)
    · intro ⟨t, ht⟩
      exact absurd ht (by simp)
  | x :: xs, y :: ys => by
    simp only [listPre, Bool.and_eq_true, beq_iff_eq]
    rw [listPre_iff xs ys]
    constructor
    · intro ⟨hxy, t, ht⟩
      exact ⟨t, by rw [hxy, List.cons_append, ht]⟩
    · intro ⟨t, ht⟩
      have h1 : x = y := by
        have := congrArg (fun l => l.headI) ht
        simpa using this
      refine ⟨h1, t, ?_⟩
      have := congrArg List.tail ht
      simpa using this

theorem univ_keys_nodup : (tokenUniverse.map tokenKey).Nodup := by decide

theorem univ_key_nonempty : ∀ t ∈ tokenUniverse, (tokenKey t).data ≠ [] := by decide

theorem univ_key_sepCodesFree :
    ∀ t1 ∈ tokenUniverse, ∀ t2 ∈ tokenUniverse, t1 ≠ t2 →
      listPre ((tokenKey t1).data ++ ['-']) ((tokenKey t2).data ++ ['-']) = false := by
  decide

theorem univ_key_sepCodeNotInBare :
    ∀ t1 ∈ tokenUniverse, ∀ t2 ∈ tokenUniverse,
      listPre ((tokenKey t1).data ++ ['-']) ((tokenKey t2).data) = false := by
  decide

theorem univ_key_noBar : ∀ t ∈ tokenUniverse, ('|' : Char) ∉ (tokenKey t).data := by decide

theorem appEq_pre {α : Type} :
    ∀ (a b u v : List α), a ++ u = b ++ v → a.length ≤ b.length → ∃ w, a ++ w = b
  | [], b, _, _, _, _ => ⟨b, rfl⟩
  | x :: xs, [], u, v, h, hl => by simp at hl
  | x :: xs, y :: ys, u, v, h, hl => by
    simp only [List.cons_append, List.cons.injEq] at h
    obtain ⟨rfl, h2⟩ := h
    obtain ⟨w, hw⟩ := appEq_pre xs ys u v h2 (by simpa using hl)
    exact ⟨w, by rw [List.cons_append, hw]⟩

theorem split_at_sep {c : Char} :
    ∀ (a b r1 r2 : List Char), c ∉ a → c ∉ b → a ++ c :: r1 = b ++ c :: r2 →
      a = b ∧ r1 = r2
  | [], [], r1, r2, _, _, h => ⟨rfl, by simpa using h⟩
  | [], y :: ys, r1, r2, _, hb, h => by
    simp only [List.nil_append, List.cons_append, List.cons.injEq] at h
    exact absurd (show c ∈ y :: ys by rw [h.1]; exact List.mem_cons_self y ys) hb
  | x :: xs, [], r1, r2, ha, _, h => by
    simp only [List.nil_append, List.cons_append, List.cons.injEq] at h
    exact absurd (show c ∈ x :: xs by rw [← h.1]; exact List.mem_cons_self x xs) ha
  | x :: xs, y :: ys, r1, r2, ha, hb, h => by
    simp only [List.cons_append, List.cons.injEq] at h
    obtain ⟨rfl, h2⟩ := h
    obtain ⟨he, hr⟩ := split_at_sep xs ys r1 r2 (fun hc => ha (List.mem_cons_of_mem _ hc))
      (fun hc => hb (List.mem_cons_of_mem _ hc)) h2
    exact ⟨by rw [he], hr⟩

theorem barKey_data_single (t : Token) : (barKeyStr [t]).data = (tokenKey t).data := rfl

theorem barKey_data_cons (t : Token) :
    ∀ (r : List Token), r ≠ [] →
      (barKeyStr (t :: r)).data = ((tokenKey t).data ++ ['-']) ++ (barKeyStr r).data
  | [], h => absurd rfl h
  | u :: rest, _ => by
    show (tokenKey t ++ "-" ++ barKeyStr (u :: rest)).data = _
    rw [String.data_append, String.data_append]

theorem tokenKey_inj_on_univ (t1 : Token) (h1 : t1 ∈ tokenUniverse) (t2 : Token)
    (h2 : t2 ∈ tokenUniverse) (h : tokenKey t1 = tokenKey t2) : t1 = t2 :=
  List.inj_on_of_nodup_map univ_keys_nodup h1 h2 h

theorem barKey_data_ne_nil (t : Token) (r : List Token) (ht : t ∈ tokenUniverse) :
    (barKeyStr (t :: r)).data ≠ [] := by
  rcases r with _ | ⟨u, rest⟩
  · rw [barKey_data_single]
    exact univ_key_nonempty t ht
  · rw [barKey_data_cons t (u :: rest) (by simp)]
    intro hcontra
    have hne := univ_key_nonempty t ht
    rcases hk : (tokenKey t).data with _ | ⟨c, cs⟩
    · exact hne hk
    · rw [hk] at hcontra
      simp at hcontra

theorem barKey_inj :
    ∀ (b1 b2 : List Token), (∀ t ∈ b1, t ∈ tokenUniverse) → (∀ t ∈ b2, t ∈ tokenUniverse) →
      barKeyStr b1 = barKeyStr b2 → b1 = b2
  | [], [], _, _, _ => rfl
  | [], t2 :: r2, _, h2, h => by
    exfalso
    have hd := congrArg String.data h
    exact barKey_data_ne_nil t2 r2 (h2 t2 (by simp)) hd.symm
  | t1 :: r1, [], h1, _, h => by
    exfalso
    have hd := congrArg String.data h
    exact barKey_data_ne_nil t1 r1 (h1 t1 (by simp)) hd
  | t1 :: r1, t2 :: r2, h1, h2, h => by
    have hd := congrArg String.data h
    have ht1 : t1 ∈ tokenUniverse := h1 t1 (by simp)
    have ht2 : t2 ∈ tokenUniverse := h2 t2 (by simp)
    rcases r1 with _ | ⟨u1, rest1⟩ <;> rcases r2 with _ | ⟨u2, rest2⟩
    · rw [barKey_data_single, barKey_data_single] at hd
      rw [tokenKey_inj_on_univ t1 ht1 t2 ht2 (String.ext hd)]
    · exfalso
      rw [barKey_data_single, barKey_data_cons t2 (u2 :: rest2) (by simp)] at hd
      have hpre : listPre ((tokenKey t2).data ++ ['-']) ((tokenKey t1).data) = true :=
        (listPre_iff _ _).2 ⟨(barKeyStr (u2 :: rest2)).data, hd.symm⟩
      rw [univ_key_sepCodeNotInBare t2 ht2 t1 ht1] at hpre
      exact absurd hpre (by simp)
    · exfalso
      rw [barKey_data_single, barKey_data_cons t1 (u1 :: rest1) (by simp)] at hd
      have hpre : listPre ((tokenKey t1).data ++ ['-']) ((tokenKey t2).data) = true :=
        (listPre_iff _ _).2 ⟨(barKeyStr (u1 :: rest1)).data, hd⟩
      rw [univ_key_sepCodeNotInBare t1 ht1 t2 ht2] at hpre
      exact absurd hpre (by simp)
    · rw [barKey_data_cons t1 (u1 :: rest1) (by simp),
        barKey_data_cons t2 (u2 :: rest2) (by simp)] at hd
      have hteq : t1 = t2 := by
        by_contra hne
        rcases Nat.le_total ((tokenKey t1).data ++ ['-']).length
            ((tokenKey t2).data ++ ['-']).length with hle | hle
        · obtain ⟨w, hw⟩ := appEq_pre _ _ _ _ hd hle
          have hpre : listPre ((tokenKey t1).data ++ ['-'])
              ((tokenKey t2).data ++ ['-']) = true := (listPre_iff _ _).2 ⟨w, hw⟩
          rw [univ_key_sepCodesFree t1 ht1 t2 ht2 hne] at hpre
          exact absurd hpre (by simp)
        · obtain ⟨w, hw⟩ := appEq_pre _ _ _ _ hd.symm hle
          have hpre : listPre ((tokenKey t2).data ++ ['-'])
              ((tokenKey t1).data ++ ['-']) = true := (listPre_iff _ _).2 ⟨w, hw⟩
          rw [univ_key_sepCodesFree t2 ht2 t1 ht1 (fun he => hne he.symm)] at hpre
          exact absurd hpre (by simp)
      subst hteq
      have htail : (barKeyStr (u1 :: rest1)).data = (barKeyStr (u2 :: rest2)).data :=
        List.append_cancel_left hd
      have hrec := barKey_inj (u1 :: rest1) (u2 :: rest2)
        (fun t ht => h1 t (List.mem_cons_of_mem _ ht))
        (fun t ht => h2 t (List.mem_cons_of_mem _ ht))
        (String.ext htail)
      rw [hrec]

theorem barsKey_data_single (b : List Token) : (barsKey [b]).data = (barKeyStr b).data := rfl

theorem barsKey_data_cons (b : List Token) :
    ∀ (rest : List (List Token)), rest ≠ [] →
      (barsKey (b :: rest)).data = ((barKeyStr b).data ++ ['|']) ++ (barsKey rest).data
  | [], h => absurd rfl h
  | b2 :: r, _ => by
    show (barKeyStr b ++ "|" ++ barsKey (b2 :: r)).data = _
    rw [String.data_append, String.data_append]

theorem barKey_noBar :
    ∀ (bar : List Token), (∀ t ∈ bar, t ∈ tokenUniverse) →
      ('|' : Char) ∉ (barKeyStr bar).data
  | [], _ => by simp [show (barKeyStr ([] : List Token)).data = [] from rfl]
  | [t], h => by
    rw [barKey_data_single]
    exact univ_key_noBar t (h t (by simp))
  | t :: u :: rest, h => by
    rw [barKey_data_cons t (u :: rest) (by simp)]
    intro hmem
    rcases List.mem_append.1 hmem with hm | hm
    · rcases List.mem_append.1 hm with hm2 | hm2
      · exact univ_key_noBar t (h t (by simp)) hm2
      · rw [List.mem_singleton] at hm2
        exact absurd hm2 (by decide)
    · exact barKey_noBar (u :: rest) (fun x hx => h x (List.mem_cons_of_mem _ hx)) hm

theorem barsKey_inj :
    ∀ (bs1 bs2 : List (List Token)),
      (∀ bar ∈ bs1, ∀ t ∈ bar, t ∈ tokenUniverse) →
      (∀ bar ∈ bs2, ∀ t ∈ bar, t ∈ tokenUniverse) →
      bs1.length = bs2.length → barsKey bs1 = barsKey bs2 → bs1 = bs2
  | [], [], _, _, _, _ => rfl
  | [], _ :: _, _, _, hlen, _ => by simp at hlen
  | _ :: _, [], _, _, hlen, _ => by simp at hlen
  | b1 :: r1, b2 :: r2, h1, h2, hlen, h => by
    have hd := congrArg String.data h
    rcases r1 with _ | ⟨c1, rest1⟩ <;> rcases r2 with _ | ⟨c2, rest2⟩
    · rw [barsKey_data_single, barsKey_data_single] at hd
      rw [barKey_inj b1 b2 (h1 b1 (by simp)) (h2 b2 (by simp)) (String.ext hd)]
    · simp at hlen
    · simp at hlen
    · rw [barsKey_data_cons b1 (c1 :: rest1) (by simp),
        barsKey_data_cons b2 (c2 :: rest2) (by simp)] at hd
      have hd2 : (barKeyStr b1).data ++ '|' :: (barsKey (c1 :: rest1)).data =
          (barKeyStr b2).data ++ '|' :: (barsKey (c2 :: rest2)).data := by
        simpa using hd
      obtain ⟨he, ht⟩ := split_at_sep _ _ _ _
        (barKey_noBar b1 (h1 b1 (by simp))) (barKey_noBar b2 (h2 b2 (by simp))) hd2
      have hb : b1 = b2 :=
        barKey_inj b1 b2 (h1 b1 (by simp)) (h2 b2 (by simp)) (String.ext he)
      have hr : (c1 :: rest1) = (c2 :: rest2) := barsKey_inj (c1 :: rest1) (c2 :: rest2)
        (fun bar hb2 => h1 bar (List.mem_cons_of_mem _ hb2))
        (fun bar hb2 => h2 bar (List.mem_cons_of_mem _ hb2))
        (by simpa using hlen) (String.ext ht)
      rw [hb, hr]

/-- C5: on rhythms built from the generator's token universe, `barsKey`
is a pure deterministic function and two rhythms of equal shape (same
number of bars) receive equal keys exactly when they are token-for-token
identical in the same bar order. -/
theorem claim5_theorem (bs1 bs2 : List (List Token))
    (h1 : ∀ bar ∈ bs1, ∀ t ∈ bar, t ∈ tokenUniverse)
    (h2 : ∀ bar ∈ bs2, ∀ t ∈ bar, t ∈ tokenUniverse)
    (hlen : bs1.length = bs2.length) :
    barsKey bs1 = barsKey bs2 ↔ bs1 = bs2 :=
  ⟨barsKey_inj bs1 bs2 h1 h2 hlen, fun h => by rw [h]⟩

theorem claim5_witness :
    barsKey [[semibreveT], [minimT]] = barsKey [[semibreveT], [crotchetT]] ↔
      [[semibreveT], [minimT]] = [[semibreveT], [crotchetT]] :=
  claim5_theorem [[semibreveT], [minimT]] [[semibreveT], [crotchetT]]
    (by decide) (by decide) rfl

theorem resolveRequired_wf (k : String) (cfg : LevelCfg) (hk : LEVELS k = some cfg)
    (r : Oracle) : ∀ t ∈ (resolveRequired cfg r).1, t ∈ tokenUniverse := by
  simp only [LEVELS] at hk
  split_ifs at hk
  · obtain rfl : easyCfg = cfg := by injection hk
    rw [resolveRequired_easy]
    show ∀ t ∈ [semibreveT, minimT, crotchetT, quaverT], t ∈ tokenUniverse
    decide
  · obtain rfl : mediumCfg = cfg := by injection hk
    rw [resolveRequired_medium]
    show ∀ t ∈ [semibreveT, minimT, crotchetT, quaverT, semiquaverT,
      dottedOf minimT, tripletTemplate], t ∈ tokenUniverse
    decide
  · obtain rfl : difficultCfg = cfg := by injection hk
    intro t ht
    have ht2 : t ∈ ((shuffle difficultCfg.allowed r).1.take
        (max 1 (difficultCfg.allowed.length / 2))).map typesD := ht
    rcases List.mem_map.1 ht2 with ⟨key, hkey, rfl⟩
    have hmem : key ∈ (shuffle difficultCfg.allowed r).1 := List.mem_of_mem_take hkey
    have hkey6 : key ∈ difficultCfg.allowed := (shuffle_perm _ _).subset hmem
    have hall : ∀ x ∈ difficultCfg.allowed, typesD x ∈ tokenUniverse := by decide
    exact hall key hkey6

/-- Every token of every generated rhythm belongs to the token universe,
so the well-formedness hypotheses used for the canonical-key injectivity
statement hold for all program-generated rhythms. -/
theorem generateForLevelCfg_univ (k : String) (cfg : LevelCfg) (hk : LEVELS k = some cfg)
    (r : Oracle) : ∀ bar ∈ (generateForLevelCfg cfg r).1, ∀ t ∈ bar, t ∈ tokenUniverse := by
  have hwf := resolveRequired_wf k cfg hk r
  have hsub := genBuckets_sublist cfg r
  have hpoolU : ∀ t ∈ mkPool cfg.allowTriplets (allowedOf cfg), t ∈ tokenUniverse := by
    simp only [LEVELS] at hk
    split_ifs at hk
    · obtain rfl : easyCfg = cfg := by injection hk
      decide
    · obtain rfl : mediumCfg = cfg := by injection hk
      decide
    · obtain rfl : difficultCfg = cfg := by injection hk
      decide
  have hpne : mkPool cfg.allowTriplets (allowedOf cfg) ≠ [] := by
    simp only [LEVELS] at hk
    split_ifs at hk
    · obtain rfl : easyCfg = cfg := by injection hk
      decide
    · obtain rfl : mediumCfg = cfg := by injection hk
      decide
    · obtain rfl : difficultCfg = cfg := by injection hk
      decide
  intro bar hbar t ht
  rw [generateForLevelCfg_def] at hbar
  simp only [List.mem_cons, List.not_mem_nil, or_false] at hbar
  rcases hbar with rfl | rfl
  · rcases fillBar_tokens_src cfg.allowTriplets (allowedOf cfg)
      (genBuckets cfg r).1.1 (genBuckets cfg r).2 hpne t ht with h | h | h
    · exact hwf t (hsub.1.subset h)
    · exact hpoolU t h
    · rw [h]; decide
  · rcases fillBar_tokens_src cfg.allowTriplets (allowedOf cfg)
      (genBuckets cfg r).1.2 _ hpne t ht with h | h | h
    · exact hwf t (hsub.2.subset h)
    · exact hpoolU t h
    · rw [h]; decide
